import Mathlib

/-!
# catwords: concatenated-word search

A shallow embedding of the two programs of the repository,

* `catwords.cpp` (class `Words`: hash set of words plus a recursive split search), and
* `jeffs.cpp` (struct `concatenated_word_challenge`: trie plus a work queue),

together with the properties proved about them.  A word (`std::string`,
`std::string_view`) is a list of characters; `size_t` values are natural numbers, reduced
modulo `2 ^ 64` where the source relies on unsigned arithmetic.
-/

/-- A word: the characters of a `std::string` / `std::string_view`. -/
abbrev Word := List Char

/-- The word `w` is the concatenation of at least `k` words, each of them taken from `D`. -/
def concat_of (D : List Word) (k : Nat) (w : Word) : Prop :=
  ∃ parts : List Word, k ≤ parts.length ∧ (∀ p ∈ parts, p ∈ D) ∧ parts.flatten = w

/-- A composite ("concatenated") word of `D`: a concatenation of two or more words of `D`. -/
def composite (D : List Word) (w : Word) : Prop := concat_of D 2 w

/-! ## Properties of inputs -/

/-- A word made of the lowercase letters `a` to `z`. -/
def lowercase (w : Word) : Prop := ∀ c ∈ w, 'a' ≤ c ∧ c ≤ 'z'

instance lowercase_decidable : DecidablePred lowercase := fun w => by
  unfold lowercase
  infer_instance

/-- A word of characters with the codes `0x01` to `0x7f`: the non-negative values of a
`char` other than NUL, for which `jeffs.cpp` reads `LUT` inside its 256 entries and gets a
slot inside `children[26]`. -/
def seven_bit (w : Word) : Prop := ∀ c ∈ w, 1 ≤ c.toNat ∧ c.toNat ≤ 127

instance seven_bit_decidable : DecidablePred seven_bit := fun w => by
  unfold seven_bit
  infer_instance

/-- A list in which no word stands before one of its proper prefixes, as in every
lexicographically sorted list. -/
def prefixes_first (ws : List Word) : Prop :=
  ws.Pairwise (fun a b => ¬ (b <+: a ∧ b ≠ a))

/-! ## catwords.cpp -/

namespace catwords

/-- The value `std::numeric_limits<std::string_view::size_type>::max()`. -/
def size_max : Nat := 2 ^ 64 - 1

/-- The members of `class Words` that the search reads: the set `words_` (kept as a
duplicate-free list) and `shortest_word_len_`. -/
structure Words where
  words_ : List Word
  shortest_word_len_ : Nat

/-- The call `words_.emplace(word)`: a set keeps one copy of each word. -/
def emplace (s : List Word) (word : Word) : List Word :=
  if word ∈ s then s else s ++ [word]

/-- The `ranges::for_each` of the constructor: every word of the file is put into
`words_` and `shortest_word_len_` becomes the minimum of the lengths seen, starting from
`size_max`. -/
def Words.load (file : List Word) : Words :=
  file.foldl
    (fun W word => ⟨emplace W.words_ word, min W.shortest_word_len_ word.length⟩)
    ⟨[], size_max⟩

/-- The function `Words::is_word_`: membership in `words_`. -/
def is_word_ (W : Words) (word : Word) : Bool := decide (word ∈ W.words_)

/-- How a call of `is_cat_word_` ends: it returns a value, `substr` throws
`std::out_of_range`, or the recursion does not come back within the budget. -/
inductive outcome where
  | value (b : Bool)
  | out_of_range
  | out_of_fuel
  deriving DecidableEq, Repr

/-- The split points visited by `for (p = shortest_word_len_; p <= word.length() -
shortest_word_len_; ++p)`, the subtraction being the unsigned one. -/
def split_points (W : Words) (word : Word) : List Nat :=
  let last := (word.length + 2 ^ 64 - W.shortest_word_len_) % 2 ^ 64
  List.range' W.shortest_word_len_ (last + 1 - W.shortest_word_len_)

/-- The body of the `for` loop of `is_cat_word_`, run over the remaining split points;
`self` is the recursive call. -/
def try_splits (W : Words) (self : Word → outcome) (word : Word) : List Nat → outcome
  | [] => .value false
  | p :: ps =>
    if word.length < p then .out_of_range
    else
      let first := word.take p
      let rest := word.drop p
      if is_word_ W first then
        if is_word_ W rest then .value true
        else
          match self rest with
          | .value true => .value true
          | .value false => try_splits W self word ps
          | e => e
      else try_splits W self word ps

/-- The function `Words::is_cat_word_` with a bound on the depth of the recursion. -/
def is_cat_word_fuel (W : Words) : Nat → Word → outcome
  | 0, _ => .out_of_fuel
  | n + 1, word => try_splits W (is_cat_word_fuel W n) word (split_points W word)

/-- The function `Words::is_cat_word_`; a recursion deeper than `word.length() + 1` is
reported as `out_of_fuel`. -/
def is_cat_word_ (W : Words) (word : Word) : outcome :=
  is_cat_word_fuel W (word.length + 1) word

end catwords

/-! ## jeffs.cpp -/

namespace jeffs

/-- The array `alphabet[]`: the twenty-six letters and the terminating NUL of the string
literal, which the range-`for` of `setupLUT` visits too. -/
def alphabet : List Char := "abcdefghijklmnopqrstuvwxyz".toList ++ [Char.ofNat 0]

/-- The function `setupLUT`: starting from the zero-initialised table, `LUT[(size_t)x] =
v++` for each `x` of `alphabet`; the result is the table together with the returned `v`
(an `unsigned char`). -/
def setupLUT : (Nat → Nat) × Nat :=
  alphabet.foldl
    (fun (s : (Nat → Nat) × Nat) x => (Function.update s.1 x.toNat s.2, (s.2 + 1) % 256))
    (fun _ => 0, 0)

/-- The global table `LUT` after `int ignored = setupLUT();`. -/
def LUT : Nat → Nat := setupLUT.1

/-- The function `index`: the slot of a character in the `children` array.  The
definition follows the code for the characters with the codes `0x01` to `0x7f`
(`seven_bit`), whose slot is below 26.  For NUL the code computes the slot 26, past the end
of `children[26]`, and a `char` with a negative value is converted to a `size_t` past the
end of `LUT`: both are reads outside an array, about which the definition says nothing. -/
def index (c : Char) : Nat := LUT c.toNat

/-- The struct `trie_node`: the array `children` of nullable pointers, read at the slot
numbers that `index` returns, and the flag `terminal`.  The code has the 26 slots
`children[26]`; they are the slots read and written for words of characters with the codes
`0x01` to `0x7f`. -/
inductive trie_node where
  | mk (children : Nat → Option trie_node) (terminal : Bool)

/-- The member `children` of a node. -/
def trie_node.children : trie_node → Nat → Option trie_node
  | .mk c _ => c

/-- The member `terminal` of a node. -/
def trie_node.terminal : trie_node → Bool
  | .mk _ t => t

/-- A value-initialised node (`new trie_node`, and the member `root` at construction): all
children null, `terminal` false. -/
def new_trie_node : trie_node := .mk (fun _ => none) false

/-- The type `suffix_queue`: a FIFO queue of (prefix, suffix) pairs, front first. -/
abbrev suffix_queue := List (Word × Word)

/-- The type `bag_of_words` (`unordered_set<string>`): a duplicate-free list, in the order
of insertion. -/
abbrev bag_of_words := List Word

/-- The call `bag.insert(word)`. -/
def bag_insert (bag : bag_of_words) (word : Word) : bag_of_words :=
  if word ∈ bag then bag else bag ++ [word]

/-- The order in which a range-`for` visits the elements of an `unordered_set`: the
standard leaves it unspecified, so it is some rearrangement of the elements inserted. -/
structure bag_iteration where
  order : bag_of_words → List Word
  perm : ∀ bag, (order bag).Perm bag

/-- The iteration order that visits the elements in the order of their insertion. -/
def insertion_order : bag_iteration := ⟨fun bag => bag, fun _ => List.Perm.refl _⟩

/-- The data members of `concatenated_word_challenge`: the trie `root` and the work
queue `Q`. -/
structure concatenated_word_challenge where
  root : trie_node
  Q : suffix_queue

/-- The result type: longest word, second longest word, total count. -/
abbrev result := Word × Word × Nat

/-- The loop of `add_word` from position `i` on, at node `p`, where `pre` is
`word.substr(0, i)` and the third argument is `word.substr(i)`.  It returns the node as
the loop leaves it and the items pushed on the queue, in order. -/
def add_word_from : trie_node → Word → Word → trie_node × suffix_queue
  | p, _, [] => (.mk p.children true, [])
  | p, pre, c :: cs =>
    let child := (p.children (index c)).getD new_trie_node
    let pushed := if p.terminal then [(pre, c :: cs)] else []
    let r := add_word_from child (pre ++ [c]) cs
    (.mk (Function.update p.children (index c) (some r.1)) p.terminal, pushed ++ r.2)

/-- The member function `add_word`. -/
def add_word (s : concatenated_word_challenge) (word : Word) : concatenated_word_challenge :=
  let r := add_word_from s.root [] word
  ⟨r.1, s.Q ++ r.2⟩

/-- The range constructor: `add_word` on each word of the input, in order. -/
def concatenated_word_challenge.ctor (input : List Word) : concatenated_word_challenge :=
  input.foldl add_word ⟨new_trie_node, []⟩

/-- The member function `exists_in_trie`, from node `p`. -/
def exists_in_trie : trie_node → Word → Bool
  | p, [] => p.terminal
  | p, c :: cs =>
    match p.children (index c) with
    | none => false
    | some q => exists_in_trie q cs

/-- The loop of `all_prefixes_of` at node `p` with running prefix `pre`, the characters
still to read and the bag built so far. -/
def all_prefixes_from : trie_node → Word → Word → bag_of_words → bag_of_words
  | _, _, [], prefixes => prefixes
  | p, pre, c :: cs, prefixes =>
    match p.children (index c) with
    | none => prefixes
    | some q =>
      all_prefixes_from q (pre ++ [c]) cs
        (if q.terminal then bag_insert prefixes (pre ++ [c]) else prefixes)

/-- The member function `all_prefixes_of`. -/
def all_prefixes_of (root : trie_node) (word : Word) : bag_of_words :=
  all_prefixes_from root [] word []

/-- The local variables of `process_work_queue` together with the queue. -/
structure loop_state where
  first_longest : Word
  second_longest : Word
  all_words : bag_of_words
  Q : suffix_queue

/-- The update of `first_longest`, `second_longest` and `all_words` for a work item whose
suffix is in the trie. -/
def record_word (st : loop_state) (word : Word) : loop_state :=
  let all_words := bag_insert st.all_words word
  if word.length > st.first_longest.length then
    { st with first_longest := word, second_longest := st.first_longest, all_words := all_words }
  else if word.length > st.second_longest.length && word != st.first_longest then
    { st with second_longest := word, all_words := all_words }
  else
    { st with all_words := all_words }

/-- The items pushed by the inner `for` of `process_work_queue` for a work item. -/
def expand (o : bag_iteration) (root : trie_node) (q : Word × Word) : suffix_queue :=
  (o.order (all_prefixes_of root q.2)).map (fun pr => (q.1 ++ pr, q.2.drop pr.length))

/-- One iteration of the `while` loop of `process_work_queue`, the queue being
`q :: rest`. -/
def iteration (o : bag_iteration) (root : trie_node) (st : loop_state) (q : Word × Word)
    (rest : suffix_queue) : loop_state :=
  let st1 := if exists_in_trie root q.2 then record_word st (q.1 ++ q.2) else st
  { st1 with Q := rest ++ expand o root q }

/-- The `while (Q.size())` loop, cut off after the given number of iterations: the state
when the queue has become empty, or after that many iterations. -/
def run_iterations (o : bag_iteration) (root : trie_node) : Nat → loop_state → loop_state
  | 0, st => st
  | n + 1, st =>
    match st.Q with
    | [] => st
    | q :: rest => run_iterations o root n (iteration o root st q rest)

/-- A number of iterations that the loop does not exceed from the queue `Q`. -/
def queue_fuel (Q : suffix_queue) : Nat := (Q.map (fun q => 2 ^ q.2.length)).sum

/-- The member function `process_work_queue`: the result, and the object afterwards; `none`
when the loop has not left within `queue_fuel Q` iterations. -/
def process_work_queue (o : bag_iteration) (s : concatenated_word_challenge) :
    Option (result × concatenated_word_challenge) :=
  let st := run_iterations o s.root (queue_fuel s.Q) ⟨[], [], [], s.Q⟩
  match st.Q with
  | [] => some ((st.first_longest, st.second_longest, st.all_words.length), ⟨s.root, []⟩)
  | _ :: _ => none

/-- The call operator `operator()`. -/
def concatenated_word_challenge.call (o : bag_iteration) (s : concatenated_word_challenge) :
    Option (result × concatenated_word_challenge) :=
  process_work_queue o s

/-- The expression `concatenated_word_challenge{b, e}()` of `run`: construct the object
from the input words and call it once. -/
def challenge (o : bag_iteration) (input : List Word) : Option result :=
  ((concatenated_word_challenge.ctor input).call o).map Prod.fst

/-- The state in which the loop of `process_work_queue` is left when the object has been
constructed from the input words. -/
def final_state (o : bag_iteration) (input : List Word) : loop_state :=
  run_iterations o (concatenated_word_challenge.ctor input).root
    (queue_fuel (concatenated_word_challenge.ctor input).Q)
    ⟨[], [], [], (concatenated_word_challenge.ctor input).Q⟩

/-- The input of `test()`. -/
def test_input : List Word :=
  ["cat", "cats", "catsdogcats", "dog", "dogcatsdog", "hippopotamuses", "rat",
    "ratcatdogcat"].map String.toList

end jeffs

/-! ## Invariants of the loop of `process_work_queue` -/

namespace jeffs

/-- What holds of `first_longest`, `second_longest` and `all_words` throughout the loop,
for every input: the words recorded are non-empty and recorded once, the longest is a
recorded word of maximal length, and the second longest is a recorded word other than the
longest, of maximal length among those. -/
structure tracker_inv (st : loop_state) : Prop where
  queue_ne : ∀ q ∈ st.Q, q.1 ++ q.2 ≠ []
  words_ne : ∀ w ∈ st.all_words, w ≠ []
  nodup : st.all_words.Nodup
  first_mem : (st.first_longest = [] ∧ st.all_words = []) ∨ st.first_longest ∈ st.all_words
  first_max : ∀ w ∈ st.all_words, w.length ≤ st.first_longest.length
  second_mem : (st.second_longest = [] ∧ ∀ w ∈ st.all_words, w = st.first_longest) ∨
    (st.second_longest ∈ st.all_words ∧ st.second_longest ≠ st.first_longest)
  second_max : ∀ w ∈ st.all_words, w ≠ st.first_longest →
    w.length ≤ st.second_longest.length

end jeffs

namespace jeffs

/-- Soundness of the loop with respect to the word list `ws`: every work item splits a
word of `ws` after a concatenation of one or more words of `ws`, and every recorded word
is a composite word of `ws`. -/
structure sound_inv (ws : List Word) (st : loop_state) : Prop where
  queue : ∀ q ∈ st.Q, q.1 ++ q.2 ∈ ws ∧ concat_of ws 1 q.1
  words : ∀ w ∈ st.all_words, w ∈ ws ∧ composite ws w

/-- Completeness of the loop with respect to the word list `ws`: every composite word of
`ws` is recorded already or is still to be reached from a work item whose suffix is a
concatenation of one or more words of `ws`. -/
def complete_inv (ws : List Word) (st : loop_state) : Prop :=
  ∀ w, w ∈ ws → composite ws w →
    w ∈ st.all_words ∨ ∃ q ∈ st.Q, q.1 ++ q.2 = w ∧ concat_of ws 1 q.2

end jeffs

/-! ## Notions used to compare the runs on a list and on the list without duplicates -/

/-- The list with each word kept once, at its first occurrence. -/
def dedup_first (ws : List Word) : List Word :=
  ws.foldl (fun kept w => if w ∈ kept then kept else kept ++ [w]) []

namespace jeffs

/-- The first half of an iteration: the update of the tracker for the work item `q`. -/
def record_item (root : trie_node) (st : loop_state) (q : Word × Word) : loop_state :=
  if exists_in_trie root q.2 then record_word st (q.1 ++ q.2) else st

/-- The state in which the loop is left when started in the state `st`. -/
def finish (o : bag_iteration) (root : trie_node) (st : loop_state) : loop_state :=
  run_iterations o root (queue_fuel st.Q) st

/-- A block of work items that all split one and the same non-empty word. -/
def block_ok (B : suffix_queue) : Prop :=
  ∃ w : Word, w ≠ [] ∧ ∀ q ∈ B, q.1 ++ q.2 = w

end jeffs

/-! ## catwords.cpp: the scan of the constructor -/

namespace catwords

/-- The order in which `ranges::count_if` visits the elements of the set `words_`: the
container leaves it unspecified, so it is some rearrangement of the elements. -/
structure scan_order where
  order : List Word → List Word
  perm : ∀ s, (order s).Perm s

/-- The scan order that visits the words in the order of their insertion. -/
def file_order : scan_order := ⟨fun s => s, fun _ => List.Perm.refl _⟩

/-- The members that the `count_if` of the constructor writes: the array
`longest_cat_words_` (of `longest_N = 2` elements) and the `int` `n_cat_words_`. -/
structure cat_words where
  longest_cat_words_ : List Word
  n_cat_words_ : Int

/-- The array `longest_cat_words_` before the scan: `longest_N = 2` empty views. -/
def no_cat_words : List Word := [[], []]

/-- The call `std::find_if(begin, end, [len](cat_word) { return len > cat_word.length(); })`:
the first position whose word is shorter than `len`; `none` stands for `end`. -/
def find_longest (longest_cat_words_ : List Word) (len : Nat) : Option Nat :=
  longest_cat_words_.findIdx? (fun cat_word => decide (len > cat_word.length))

/-- The call `std::rotate(first, middle, last)` on positions of an array: the elements
from `middle` to `last` come to stand before those from `first` to `middle`. -/
def rotate (a : List Word) (first middle last : Nat) : List Word :=
  a.take first ++ ((a.drop middle).take (last - middle) ++ (a.drop first).take (middle - first))
    ++ a.drop last

/-- What the lambda of the `count_if` does with a word that is a concatenated word:
when `find_if` finds a position, rotate the last element to it and overwrite it with the
word. -/
def offer (longest_cat_words_ : List Word) (word : Word) : List Word :=
  match find_longest longest_cat_words_ word.length with
  | none => longest_cat_words_
  | some longest =>
    (rotate longest_cat_words_ longest (longest_cat_words_.length - 1)
      longest_cat_words_.length).set longest word

/-- One call of the lambda of the `count_if`, on the array and the running count; `none`
when `is_cat_word_` does not return a value. -/
def scan_step (W : Words) (st : Option (List Word × Nat)) (word : Word) :
    Option (List Word × Nat) :=
  match st with
  | none => none
  | some (longest_cat_words_, n) =>
    match is_cat_word_ W word with
    | .value true => some (offer longest_cat_words_ word, n + 1)
    | .value false => some (longest_cat_words_, n)
    | _ => none

/-- The conversion of the count to the `int` member `n_cat_words_` (32 bits, two's
complement). -/
def to_int (n : Nat) : Int := ((n + 2 ^ 31) % 2 ^ 32 : Nat) - 2 ^ 31

/-- The statement `n_cat_words_ = ranges::count_if(words_, ...)` of the constructor. -/
def count_cat_words (o : scan_order) (W : Words) : Option cat_words :=
  ((o.order W.words_).foldl (scan_step W) (some (no_cat_words, 0))).map
    (fun r => ⟨r.1, to_int r.2⟩)

/-- The constructor `Words::Words`, the words of the file being given: the members after
it, or `none` when a call of `is_cat_word_` does not return a value. -/
def Words.ctor (o : scan_order) (file : List Word) : Option (Words × cat_words) :=
  (count_cat_words o (Words.load file)).map (fun r => (Words.load file, r))

/-- The words of a list for which `is_cat_word_` returns `true`, in the order of the
list. -/
def cat_words_of (W : Words) (l : List Word) : List Word :=
  l.filter (fun word => decide (is_cat_word_ W word = .value true))

/-- The list sorted by descending length, words of equal length staying in their
order. -/
def stable_sort_by_length (l : List Word) : List Word :=
  l.insertionSort (fun a b => b.length ≤ a.length)

/-- The insertion of a word into a list behind every word at least as long. -/
def insert_behind (w : Word) : List Word → List Word
  | [] => [w]
  | b :: l => if w.length > b.length then w :: b :: l else b :: insert_behind w l

end catwords

/-! ## Notions used to describe the order in which the work queue finds the words -/

/-- The word `w` is the concatenation of exactly `k` words, each of them taken from `D`. -/
def concat_exactly (D : List Word) (k : Nat) (w : Word) : Prop :=
  ∃ parts : List Word, parts.length = k ∧ (∀ p ∈ parts, p ∈ D) ∧ parts.flatten = w

namespace jeffs

end jeffs

/-! ## Notions used for words that occur several times in any place of the list -/

/-- The words of `ws` that are not in `kept`, each once, at its first occurrence. -/
def first_occurrences : List Word → List Word → List Word
  | _, [] => []
  | kept, w :: ws =>
    if w ∈ kept then first_occurrences kept ws else w :: first_occurrences (kept ++ [w]) ws

namespace jeffs

/-- The items pushed by `add_word` for the word `x` when the trie is `root`. -/
def pushed_for (root : trie_node) (x : Word) : suffix_queue := (add_word_from root [] x).2

/-- A block of work items that cannot change the tracker any more: none of its suffixes
is in the trie, or the word that all its items split is recorded. -/
def settled (root : trie_node) (st : loop_state) (B : suffix_queue) : Prop :=
  (∀ q ∈ B, exists_in_trie root q.2 = false) ∨
    ∃ w, (∀ q ∈ B, q.1 ++ q.2 = w) ∧ w ∈ st.all_words

end jeffs

/-! ## Lemmas on concatenations -/

theorem concat_of_mono {D : List Word} {j k : Nat} {w : Word} (hjk : j ≤ k)
    (h : concat_of D k w) : concat_of D j w := by
  obtain ⟨parts, hl, hD, hw⟩ := h
  exact ⟨parts, le_trans hjk hl, hD, hw⟩

theorem concat_of_one_of_mem {D : List Word} {w : Word} (h : w ∈ D) : concat_of D 1 w :=
  ⟨[w], by simp, by simpa using h, by simp⟩

theorem concat_of_cons {D : List Word} {k : Nat} {u v : Word} (hu : u ∈ D)
    (hv : concat_of D k v) : concat_of D (k + 1) (u ++ v) := by
  obtain ⟨parts, hl, hD, hw⟩ := hv
  refine ⟨u :: parts, by simpa using hl, ?_, by simp [hw]⟩
  intro p hp
  rcases List.mem_cons.1 hp with rfl | hp
  · exact hu
  · exact hD p hp

theorem concat_of_append {D : List Word} {j k : Nat} {u v : Word} (hu : concat_of D j u)
    (hv : concat_of D k v) : concat_of D (j + k) (u ++ v) := by
  obtain ⟨pu, hlu, hDu, hwu⟩ := hu
  obtain ⟨pv, hlv, hDv, hwv⟩ := hv
  refine ⟨pu ++ pv, by simp; omega, ?_, by simp [hwu, hwv]⟩
  intro p hp
  rcases List.mem_append.1 hp with hp | hp
  · exact hDu p hp
  · exact hDv p hp

/-- A concatenation of at least `k + 1` words splits into a first word and a
concatenation of at least `k` words. -/
theorem concat_of_succ_split {D : List Word} {k : Nat} {w : Word}
    (h : concat_of D (k + 1) w) : ∃ u v, u ∈ D ∧ concat_of D k v ∧ w = u ++ v := by
  obtain ⟨parts, hl, hD, hw⟩ := h
  cases parts with
  | nil => simp at hl
  | cons u ps =>
    refine ⟨u, ps.flatten, hD u (by simp), ⟨ps, by simpa using hl, ?_, rfl⟩, by simp [← hw]⟩
    intro p hp
    exact hD p (List.mem_cons_of_mem _ hp)

/-- A concatenation of at least one word is a word of `D` or a composite word. -/
theorem concat_of_one_cases {D : List Word} {w : Word} (h : concat_of D 1 w) :
    w ∈ D ∨ composite D w := by
  obtain ⟨parts, hl, hD, hw⟩ := h
  match parts, hl, hD, hw with
  | [u], _, hD, hw =>
    left
    have : u = w := by simpa using hw
    exact this ▸ hD u (by simp)
  | u :: v :: ps, _, hD, hw => exact Or.inr ⟨u :: v :: ps, by simp, hD, hw⟩

/-- Every word of `D` has at least `m` characters, hence so has every concatenation of at
least `k` of them, `k` times over. -/
theorem concat_of_length_ge {D : List Word} {m : Nat} (hm : ∀ d ∈ D, m ≤ d.length)
    {k : Nat} {w : Word} (h : concat_of D k w) : k * m ≤ w.length := by
  obtain ⟨parts, hl, hD, hw⟩ := h
  subst hw
  have key : parts.length * m ≤ parts.flatten.length := by
    clear hl
    induction parts with
    | nil => simp
    | cons u ps ih =>
      have h1 := hm u (hD u (by simp))
      have h2 := ih (fun p hp => hD p (List.mem_cons_of_mem _ hp))
      simp only [List.length_cons, List.flatten_cons, List.length_append]
      nlinarith
  exact le_trans (Nat.mul_le_mul_right m hl) key

/-! ## catwords.cpp: the dictionary -/

namespace catwords

theorem mem_emplace {s : List Word} {word x : Word} :
    x ∈ emplace s word ↔ x ∈ s ∨ x = word := by
  unfold emplace
  split
  · constructor
    · exact Or.inl
    · rintro (h | rfl)
      · exact h
      · assumption
  · simp

/-- The state of the constructor's loop after the words of `file`, started from `W`. -/
theorem load_foldl_spec (file : List Word) (W : Words) :
    let W' := file.foldl
      (fun W word => (⟨emplace W.words_ word, min W.shortest_word_len_ word.length⟩ : Words)) W
    (∀ x, x ∈ W'.words_ ↔ x ∈ W.words_ ∨ x ∈ file) ∧
    W'.shortest_word_len_ ≤ W.shortest_word_len_ ∧
    (∀ x ∈ file, W'.shortest_word_len_ ≤ x.length) ∧
    (∀ k, k ≤ W.shortest_word_len_ → (∀ x ∈ file, k ≤ x.length) →
      k ≤ W'.shortest_word_len_) := by
  induction file generalizing W with
  | nil => simp
  | cons a l ih =>
    obtain ⟨h1, h2, h3, h4⟩ := ih ⟨emplace W.words_ a, min W.shortest_word_len_ a.length⟩
    simp only [List.foldl_cons]
    refine ⟨?_, ?_, ?_, ?_⟩
    · intro x
      rw [h1 x, mem_emplace, List.mem_cons]
      tauto
    · exact le_trans h2 (min_le_left _ _)
    · intro x hx
      rcases List.mem_cons.1 hx with rfl | hx
      · exact le_trans h2 (min_le_right _ _)
      · exact h3 x hx
    · intro k hk hall
      apply h4 k
      · exact le_min hk (hall a (by simp))
      · intro x hx
        exact hall x (List.mem_cons_of_mem _ hx)

theorem mem_load_words {file : List Word} {x : Word} :
    x ∈ (Words.load file).words_ ↔ x ∈ file := by
  have := (load_foldl_spec file ⟨[], size_max⟩).1 x
  simpa [Words.load] using this

theorem is_word_load {file : List Word} {x : Word} :
    is_word_ (Words.load file) x = true ↔ x ∈ file := by
  simp [is_word_, mem_load_words]

theorem shortest_le_of_mem {file : List Word} {x : Word} (hx : x ∈ file) :
    (Words.load file).shortest_word_len_ ≤ x.length :=
  (load_foldl_spec file ⟨[], size_max⟩).2.2.1 x hx

theorem shortest_le_size_max (file : List Word) :
    (Words.load file).shortest_word_len_ ≤ size_max :=
  (load_foldl_spec file ⟨[], size_max⟩).2.1

theorem shortest_pos {file : List Word} (hne : ∀ d ∈ file, d ≠ []) :
    1 ≤ (Words.load file).shortest_word_len_ := by
  apply (load_foldl_spec file ⟨[], size_max⟩).2.2.2 1
  · simp [size_max]
  · intro x hx
    exact List.length_pos.2 (hne x hx)

/-- When the word is at least as long as the shortest word, the unsigned subtraction is
the ordinary one and the loop visits the split points `m, ..., len - m`. -/
theorem mem_split_points {W : Words} {word : Word} (hm : W.shortest_word_len_ ≤ word.length)
    (hw : word.length < 2 ^ 64) {p : Nat} :
    p ∈ split_points W word ↔
      W.shortest_word_len_ ≤ p ∧ p + W.shortest_word_len_ ≤ word.length := by
  unfold split_points
  have h1 : (word.length + 2 ^ 64 - W.shortest_word_len_) % 2 ^ 64
      = word.length - W.shortest_word_len_ := by
    have : word.length + 2 ^ 64 - W.shortest_word_len_
        = (word.length - W.shortest_word_len_) + 2 ^ 64 := by omega
    rw [this, Nat.add_mod_right]
    exact Nat.mod_eq_of_lt (by omega)
  simp only [h1, List.mem_range'_1]
  omega

end catwords

/-! ## catwords.cpp: the split search -/

namespace catwords

/-- The loop over the split points: when no `substr` is out of range and every recursive
call returns a value that decides `C`, the loop returns, and it returns `true` exactly
when some split point has a first part in the set and a rest in the set or in `C`. -/
theorem try_splits_spec (W : Words) (self : Word → outcome) (word : Word) (C : Word → Prop)
    (ps : List Nat) (hps : ∀ p ∈ ps, p ≤ word.length)
    (hself : ∀ p ∈ ps, ∃ b, self (word.drop p) = .value b ∧ (b = true ↔ C (word.drop p))) :
    ∃ b, try_splits W self word ps = .value b ∧
      (b = true ↔ ∃ p ∈ ps, is_word_ W (word.take p) = true ∧
        (is_word_ W (word.drop p) = true ∨ C (word.drop p))) := by
  induction ps with
  | nil => exact ⟨false, rfl, by simp⟩
  | cons p ps ih =>
    obtain ⟨b, hb, hiff⟩ := ih (fun q hq => hps q (List.mem_cons_of_mem _ hq))
      (fun q hq => hself q (List.mem_cons_of_mem _ hq))
    have hp : ¬ word.length < p := not_lt.2 (hps p (by simp))
    obtain ⟨c, hc, hciff⟩ := hself p (by simp)
    simp only [try_splits, hp, if_false]
    by_cases h1 : is_word_ W (word.take p) = true
    · by_cases h2 : is_word_ W (word.drop p) = true
      · refine ⟨true, by simp [h1, h2], ?_⟩
        simp only [true_iff]
        exact ⟨p, by simp, h1, Or.inl h2⟩
      · cases c with
        | true =>
          refine ⟨true, by simp [h1, h2, hc], ?_⟩
          simp only [true_iff]
          exact ⟨p, by simp, h1, Or.inr (hciff.1 rfl)⟩
        | false =>
          refine ⟨b, by simp [h1, h2, hc, hb], ?_⟩
          rw [hiff]
          constructor
          · rintro ⟨q, hq, hq'⟩
            exact ⟨q, List.mem_cons_of_mem _ hq, hq'⟩
          · rintro ⟨q, hq, hq1, hq2⟩
            rcases List.mem_cons.1 hq with rfl | hq
            · rcases hq2 with hq2 | hq2
              · exact absurd hq2 h2
              · have := hciff.2 hq2
                simp at this
            · exact ⟨q, hq, hq1, hq2⟩
    · refine ⟨b, by simp [h1, hb], ?_⟩
      rw [hiff]
      constructor
      · rintro ⟨q, hq, hq'⟩
        exact ⟨q, List.mem_cons_of_mem _ hq, hq'⟩
      · rintro ⟨q, hq, hq1, hq2⟩
        rcases List.mem_cons.1 hq with rfl | hq
        · exact absurd hq1 h1
        · exact ⟨q, hq, hq1, hq2⟩

/-- A word is composite exactly when it has a split point between `m` and `len - m` with
a first part in the dictionary and a rest that is in the dictionary or composite; `m` is
any lower bound of the word lengths. -/
theorem composite_iff_split {D : List Word} {m : Nat} (hm : ∀ d ∈ D, m ≤ d.length)
    (word : Word) :
    composite D word ↔ ∃ p, (m ≤ p ∧ p + m ≤ word.length) ∧ word.take p ∈ D ∧
      (word.drop p ∈ D ∨ composite D (word.drop p)) := by
  constructor
  · intro h
    obtain ⟨u, v, hu, hv, rfl⟩ := concat_of_succ_split h
    have hvl := concat_of_length_ge hm hv
    refine ⟨u.length, ⟨hm u hu, ?_⟩, by simpa using hu, ?_⟩
    · simp only [List.length_append]
      omega
    · simpa using concat_of_one_cases hv
  · rintro ⟨p, -, h1, h2⟩
    have hv : concat_of D 1 (word.drop p) := by
      rcases h2 with h2 | h2
      · exact concat_of_one_of_mem h2
      · exact concat_of_mono (by norm_num) h2
    have := concat_of_cons h1 hv
    rwa [List.take_append_drop] at this

/-- With enough fuel the search returns, and it decides compositeness. -/
theorem is_cat_word_fuel_spec (D : List Word) (hne : ∀ d ∈ D, d ≠ []) :
    ∀ (n : Nat) (word : Word), word.length < n →
      (Words.load D).shortest_word_len_ ≤ word.length → word.length < 2 ^ 64 →
      ∃ b, is_cat_word_fuel (Words.load D) n word = .value b ∧ (b = true ↔ composite D word) := by
  intro n
  induction n with
  | zero => intro word h; omega
  | succ n ih =>
    intro word hn hm hw
    have hpos := shortest_pos hne
    have hsp := fun p => mem_split_points (p := p) hm hw
    obtain ⟨b, hb, hiff⟩ := try_splits_spec (Words.load D) (is_cat_word_fuel (Words.load D) n)
      word (composite D) (split_points (Words.load D) word)
      (fun p hp => by have := (hsp p).1 hp; omega)
      (fun p hp => by
        have := (hsp p).1 hp
        apply ih
        · simp only [List.length_drop]; omega
        · simp only [List.length_drop]; omega
        · simp only [List.length_drop]; omega)
    refine ⟨b, hb, ?_⟩
    rw [hiff, composite_iff_split (fun d hd => shortest_le_of_mem hd) word]
    constructor
    · rintro ⟨p, hp, h1, h2⟩
      exact ⟨p, (hsp p).1 hp, is_word_load.1 h1, h2.imp_left is_word_load.1⟩
    · rintro ⟨p, hp, h1, h2⟩
      exact ⟨p, (hsp p).2 hp, is_word_load.2 h1, h2.imp_left is_word_load.2⟩

end catwords

/-! ## catwords.cpp: claims -/

/-- C1. For a dictionary `D` of non-empty words and a word `w` at least as long as the
shortest word of `D` (`shortest_word_len_`), `Words::is_cat_word_` returns, and it returns
`true` if and only if `w` is the concatenation of two or more words of `D`. -/
theorem is_cat_word_iff_concatenation (D : List Word) (hne : ∀ d ∈ D, d ≠ []) (w : Word)
    (hm : (catwords.Words.load D).shortest_word_len_ ≤ w.length) (hw : w.length < 2 ^ 64) :
    ∃ b, catwords.is_cat_word_ (catwords.Words.load D) w = .value b ∧
      (b = true ↔ ∃ parts : List Word, 2 ≤ parts.length ∧ (∀ p ∈ parts, p ∈ D) ∧
        parts.flatten = w) :=
  catwords.is_cat_word_fuel_spec D hne (w.length + 1) w (Nat.lt_succ_self _) hm hw

set_option maxRecDepth 100000 in
/-- C1, at the dictionary `cat, dog, catdog` and the word `catdog`. -/
theorem is_cat_word_iff_concatenation_witness :
    (∀ d ∈ [['c','a','t'], ['d','o','g'], ['c','a','t','d','o','g']], d ≠ ([] : Word)) ∧
    (catwords.Words.load [['c','a','t'], ['d','o','g'], ['c','a','t','d','o','g']]).shortest_word_len_
      ≤ (['c','a','t','d','o','g'] : Word).length ∧
    ∃ b, catwords.is_cat_word_
        (catwords.Words.load [['c','a','t'], ['d','o','g'], ['c','a','t','d','o','g']])
        ['c','a','t','d','o','g'] = .value b ∧
      (b = true ↔ ∃ parts : List Word, 2 ≤ parts.length ∧
        (∀ p ∈ parts, p ∈ [['c','a','t'], ['d','o','g'], ['c','a','t','d','o','g']]) ∧
        parts.flatten = ['c','a','t','d','o','g']) :=
  ⟨by decide, by decide,
    is_cat_word_iff_concatenation _ (by decide) _ (by decide) (by simp)⟩

/-- C5. Minimum-length pruning: when the shortest word of the dictionary `D` has length
`k`, `Words::is_cat_word_` returns `false` for every word of `D` shorter than `2 * k`. -/
theorem no_composite_below_twice_shortest (D : List Word) (w : Word) (hD : w ∈ D)
    (hlen : w.length < 2 * (catwords.Words.load D).shortest_word_len_)
    (hw : w.length < 2 ^ 64) :
    catwords.is_cat_word_ (catwords.Words.load D) w = .value false := by
  have hm := catwords.shortest_le_of_mem hD
  have hnil : catwords.split_points (catwords.Words.load D) w = [] := by
    apply List.eq_nil_iff_forall_not_mem.2
    intro p hp
    have := (catwords.mem_split_points hm hw).1 hp
    omega
  simp [catwords.is_cat_word_, catwords.is_cat_word_fuel, hnil, catwords.try_splits]

set_option maxRecDepth 100000 in
/-- C5, at the dictionary `cat, cats, dog` (shortest length 3) and its word `cats`. -/
theorem no_composite_below_twice_shortest_witness :
    (['c','a','t','s'] : Word) ∈ ([['c','a','t'], ['c','a','t','s'], ['d','o','g']] : List Word) ∧
    (['c','a','t','s'] : Word).length
      < 2 * (catwords.Words.load [['c','a','t'], ['c','a','t','s'], ['d','o','g']]).shortest_word_len_ ∧
    catwords.is_cat_word_ (catwords.Words.load [['c','a','t'], ['c','a','t','s'], ['d','o','g']])
      ['c','a','t','s'] = .value false :=
  ⟨by decide, by decide, no_composite_below_twice_shortest _ _ (by decide) (by decide) (by simp)⟩

/-! ## jeffs.cpp: the trie -/

namespace jeffs

@[simp] theorem children_mk (c : Nat → Option trie_node) (t : Bool) :
    (trie_node.mk c t).children = c := rfl

@[simp] theorem terminal_mk (c : Nat → Option trie_node) (t : Bool) :
    (trie_node.mk c t).terminal = t := rfl

theorem exists_in_trie_nil (p : trie_node) : exists_in_trie p [] = p.terminal := by
  cases p; rfl

theorem exists_in_trie_cons (p : trie_node) (c : Char) (cs : Word) :
    exists_in_trie p (c :: cs) =
      match p.children (index c) with
      | none => false
      | some q => exists_in_trie q cs := by
  cases p; rfl

/-- A fresh node holds no word. -/
theorem exists_in_new (x : Word) : exists_in_trie new_trie_node x = false := by
  cases x with
  | nil => rfl
  | cons c cs => rfl

/-- The words below the child that `add_word` steps into are those reached through the
slot of the character. -/
theorem exists_in_child (p : trie_node) (c : Char) (cs : Word) :
    exists_in_trie ((p.children (index c)).getD new_trie_node) cs
      = exists_in_trie p (c :: cs) := by
  rw [exists_in_trie_cons]
  cases h : p.children (index c) with
  | none => simp [exists_in_new]
  | some q => simp

/-- Adding a word does not change the answer for a word of another length. -/
theorem exists_add_of_length_ne (w : Word) :
    ∀ (p : trie_node) (pre x : Word), x.length ≠ w.length →
      exists_in_trie (add_word_from p pre w).1 x = exists_in_trie p x := by
  induction w with
  | nil =>
    intro p pre x hx
    cases x with
    | nil => simp at hx
    | cons d ds => simp [add_word_from, exists_in_trie_cons]
  | cons c cs ih =>
    intro p pre x hx
    cases x with
    | nil => simp [add_word_from, exists_in_trie_nil]
    | cons d ds =>
      simp only [add_word_from, exists_in_trie_cons, children_mk]
      by_cases hi : index d = index c
      · rw [hi]
        simp only [Function.update_same]
        rw [ih _ _ ds (by simpa using hx), exists_in_child, exists_in_trie_cons]
      · rw [Function.update_noteq hi]

/-- After `add_word`, the word added is in the trie. -/
theorem exists_add_self (w : Word) :
    ∀ (p : trie_node) (pre : Word), exists_in_trie (add_word_from p pre w).1 w = true := by
  induction w with
  | nil => intro p pre; simp [add_word_from, exists_in_trie_nil]
  | cons c cs ih =>
    intro p pre
    simp only [add_word_from, exists_in_trie_cons, children_mk, Function.update_same]
    exact ih _ _

/-- Adding a word keeps the words that are in the trie. -/
theorem exists_add_of_exists (w : Word) :
    ∀ (p : trie_node) (pre x : Word), exists_in_trie p x = true →
      exists_in_trie (add_word_from p pre w).1 x = true := by
  induction w with
  | nil =>
    intro p pre x hx
    cases x with
    | nil => simp [add_word_from, exists_in_trie_nil]
    | cons d ds => simpa [add_word_from, exists_in_trie_cons] using hx
  | cons c cs ih =>
    intro p pre x hx
    cases x with
    | nil => simpa [add_word_from, exists_in_trie_nil] using hx
    | cons d ds =>
      simp only [add_word_from, exists_in_trie_cons, children_mk]
      by_cases hi : index d = index c
      · rw [hi]
        simp only [Function.update_same]
        apply ih
        rw [exists_in_child]
        rw [exists_in_trie_cons] at hx ⊢
        rw [← hi]
        exact hx
      · rw [Function.update_noteq hi]
        rw [exists_in_trie_cons] at hx
        exact hx

/-- Adding `w` adds no other word, as far as the characters of the two words have
different slots in the `children` array. -/
theorem exists_add_cases (w : Word) :
    ∀ (p : trie_node) (pre x : Word),
      (∀ c ∈ w, ∀ d ∈ x, index d = index c → d = c) →
      exists_in_trie (add_word_from p pre w).1 x = true →
      exists_in_trie p x = true ∨ x = w := by
  induction w with
  | nil =>
    intro p pre x _ hx
    cases x with
    | nil => exact Or.inr rfl
    | cons d ds => left; simpa [add_word_from, exists_in_trie_cons] using hx
  | cons c cs ih =>
    intro p pre x hinj hx
    cases x with
    | nil => left; simpa [add_word_from, exists_in_trie_nil] using hx
    | cons d ds =>
      simp only [add_word_from, exists_in_trie_cons, children_mk] at hx
      by_cases hi : index d = index c
      · have hdc : d = c := hinj c (by simp) d (by simp) hi
        subst hdc
        simp only [Function.update_same] at hx
        rcases ih _ _ ds (fun c' hc' d' hd' => hinj c' (List.mem_cons_of_mem _ hc') d'
          (List.mem_cons_of_mem _ hd')) hx with h | h
        · left
          rwa [exists_in_child] at h
        · right
          rw [h]
      · rw [Function.update_noteq hi] at hx
        left
        rw [exists_in_trie_cons]
        exact hx

/-- Adding a word that is in the trie already leaves the trie as it is. -/
theorem add_word_from_of_exists (w : Word) :
    ∀ (p : trie_node) (pre : Word), exists_in_trie p w = true →
      (add_word_from p pre w).1 = p := by
  induction w with
  | nil =>
    intro p pre h
    cases p with
    | mk ch t =>
      simp only [exists_in_trie_nil, terminal_mk] at h
      simp [add_word_from, h]
  | cons c cs ih =>
    intro p pre h
    cases p with
    | mk ch t =>
      rw [exists_in_trie_cons] at h
      simp only [children_mk] at h
      cases hq : ch (index c) with
      | none => simp [hq] at h
      | some q =>
        simp only [hq] at h
        simp only [add_word_from, children_mk, terminal_mk, hq, Option.getD_some,
          ih q (pre ++ [c]) h]
        congr 1
        rw [← hq]
        exact Function.update_eq_self _ _

end jeffs

namespace jeffs

/-- The items that `add_word` pushes: one for each split of the word into a prefix that
is in the trie and a non-empty rest. -/
theorem mem_pushed (w : Word) :
    ∀ (p : trie_node) (pre a b : Word),
      (a, b) ∈ (add_word_from p pre w).2 ↔
        ∃ u v, w = u ++ v ∧ v ≠ [] ∧ exists_in_trie p u = true ∧ a = pre ++ u ∧ b = v := by
  induction w with
  | nil =>
    intro p pre a b
    simp only [add_word_from, List.not_mem_nil, false_iff]
    rintro ⟨u, v, h, hv, -⟩
    have := congrArg List.length h
    simp only [List.length_nil, List.length_append] at this
    exact hv (List.length_eq_zero.1 (by omega))
  | cons c cs ih =>
    intro p pre a b
    simp only [add_word_from, List.mem_append, ih]
    constructor
    · rintro (h | ⟨u, v, hw, hv, hu, ha, hb⟩)
      · by_cases ht : p.terminal = true
        · simp only [ht, if_true, List.mem_singleton, Prod.mk.injEq] at h
          obtain ⟨ha, hb⟩ := h
          exact ⟨[], c :: cs, rfl, by simp, by simpa [exists_in_trie_nil] using ht,
            by simpa using ha, hb⟩
        · simp [ht] at h
      · refine ⟨c :: u, v, by simp [hw], hv, ?_, by simpa using ha, hb⟩
        rwa [exists_in_child] at hu
    · rintro ⟨u, v, h, hv, hu, ha, hb⟩
      cases u with
      | nil =>
        left
        simp only [List.nil_append] at h
        rw [exists_in_trie_nil] at hu
        simp [hu, h, ha, hb]
      | cons d ds =>
        right
        simp only [List.cons_append, List.cons.injEq] at h
        obtain ⟨hd, hcs⟩ := h
        subst hd
        refine ⟨ds, v, hcs, hv, ?_, by simpa using ha, hb⟩
        rwa [exists_in_child]

/-- The items pushed depend on the trie only through the shorter words it holds. -/
theorem pushed_congr (w : Word) :
    ∀ (p p' : trie_node) (pre : Word),
      (∀ u : Word, u.length < w.length → exists_in_trie p u = exists_in_trie p' u) →
      (add_word_from p pre w).2 = (add_word_from p' pre w).2 := by
  induction w with
  | nil => intro p p' pre _; rfl
  | cons c cs ih =>
    intro p p' pre h
    simp only [add_word_from]
    have ht : p.terminal = p'.terminal := by
      have := h [] (by simp)
      simpa [exists_in_trie_nil] using this
    rw [ht]
    congr 1
    apply ih
    intro u hu
    rw [exists_in_child, exists_in_child]
    exact h (c :: u) (by simpa using hu)

theorem mem_bag_insert {bag : bag_of_words} {word x : Word} :
    x ∈ bag_insert bag word ↔ x ∈ bag ∨ x = word := by
  unfold bag_insert
  split
  · constructor
    · exact Or.inl
    · rintro (h | rfl)
      · exact h
      · assumption
  · simp

theorem nodup_bag_insert {bag : bag_of_words} (word : Word) (h : bag.Nodup) :
    (bag_insert bag word).Nodup := by
  unfold bag_insert
  split
  · exact h
  · rename_i hn
    rw [List.nodup_append]
    refine ⟨h, by simp, ?_⟩
    intro a ha hb
    simp only [List.mem_singleton] at hb
    subst hb
    exact hn ha

/-- The bag that `all_prefixes_of` builds: the non-empty prefixes of the word that are in
the trie. -/
theorem mem_all_prefixes_from (cs : Word) :
    ∀ (p : trie_node) (pre : Word) (acc : bag_of_words) (x : Word),
      x ∈ all_prefixes_from p pre cs acc ↔
        x ∈ acc ∨ ∃ u, u ≠ [] ∧ u <+: cs ∧ exists_in_trie p u = true ∧ x = pre ++ u := by
  induction cs with
  | nil =>
    intro p pre acc x
    simp only [all_prefixes_from, List.prefix_nil]
    constructor
    · exact Or.inl
    · rintro (h | ⟨u, hu, hu', -⟩)
      · exact h
      · exact absurd hu' hu
  | cons c cs ih =>
    intro p pre acc x
    simp only [all_prefixes_from]
    cases hq : p.children (index c) with
    | none =>
      simp only
      constructor
      · exact Or.inl
      · rintro (h | ⟨u, hu, hpre, hex, -⟩)
        · exact h
        · cases u with
          | nil => exact absurd rfl hu
          | cons d ds =>
            have hd : d = c := (List.cons_prefix_cons.1 hpre).1
            subst hd
            rw [exists_in_trie_cons, hq] at hex
            simp at hex
    | some q =>
      simp only
      rw [ih]
      have hchild : ∀ u, exists_in_trie q u = exists_in_trie p (c :: u) := by
        intro u
        rw [exists_in_trie_cons, hq]
      constructor
      · rintro (h | ⟨u, hu, hpre, hex, rfl⟩)
        · by_cases ht : q.terminal = true
          · simp only [ht, if_true, mem_bag_insert] at h
            rcases h with h | rfl
            · exact Or.inl h
            · right
              refine ⟨[c], by simp, by simp [List.cons_prefix_cons], ?_, rfl⟩
              rw [← hchild, exists_in_trie_nil]
              exact ht
          · simp only [ht] at h
            exact Or.inl h
        · right
          refine ⟨c :: u, by simp, by simpa [List.cons_prefix_cons] using hpre, ?_, by simp⟩
          rw [← hchild]
          exact hex
      · rintro (h | ⟨u, hu, hpre, hex, rfl⟩)
        · left
          split
          · exact mem_bag_insert.2 (Or.inl h)
          · exact h
        · cases u with
          | nil => exact absurd rfl hu
          | cons d ds =>
            obtain ⟨rfl, hds⟩ := List.cons_prefix_cons.1 hpre
            rw [← hchild] at hex
            by_cases hnil : ds = []
            · subst hnil
              left
              rw [exists_in_trie_nil] at hex
              simp [hex, mem_bag_insert]
            · right
              exact ⟨ds, hnil, hds, hex, by simp⟩

theorem mem_all_prefixes_of {root : trie_node} {s x : Word} :
    x ∈ all_prefixes_of root s ↔ x ≠ [] ∧ x <+: s ∧ exists_in_trie root x = true := by
  unfold all_prefixes_of
  rw [mem_all_prefixes_from]
  simp only [List.not_mem_nil, false_or, List.nil_append]
  constructor
  · rintro ⟨u, h1, h2, h3, rfl⟩
    exact ⟨h1, h2, h3⟩
  · rintro ⟨h1, h2, h3⟩
    exact ⟨x, h1, h2, h3, rfl⟩

/-- The weight that bounds the work caused by the prefixes found in a word of `N`
characters: it stays below `2 ^ N`. -/
theorem weight_all_prefixes_from (N : Nat) (cs : Word) :
    ∀ (p : trie_node) (pre : Word) (acc : bag_of_words), pre.length + cs.length = N →
      ((all_prefixes_from p pre cs acc).map (fun x => 2 ^ (N - x.length))).sum + 1
        ≤ (acc.map (fun x => 2 ^ (N - x.length))).sum + 2 ^ cs.length := by
  induction cs with
  | nil => intro p pre acc _; simp [all_prefixes_from]
  | cons c cs ih =>
    intro p pre acc hN
    simp only [all_prefixes_from]
    cases hq : p.children (index c) with
    | none =>
      simp only
      have : 1 ≤ 2 ^ (c :: cs).length := Nat.one_le_two_pow
      generalize 2 ^ (c :: cs).length = t at *
      omega
    | some q =>
      simp only
      have hN' : (pre ++ [c]).length + cs.length = N := by
        simp only [List.length_append, List.length_cons, List.length_nil] at hN ⊢
        omega
      have h1 := ih q (pre ++ [c])
        (if q.terminal then bag_insert acc (pre ++ [c]) else acc) hN'
      have h2 : ((if q.terminal then bag_insert acc (pre ++ [c]) else acc).map
          (fun x => 2 ^ (N - x.length))).sum
          ≤ (acc.map (fun x => 2 ^ (N - x.length))).sum + 2 ^ cs.length := by
        split
        · unfold bag_insert
          split
          · exact Nat.le_add_right _ _
          · simp only [List.map_append, List.sum_append, List.map_cons, List.map_nil,
              List.sum_cons, List.sum_nil, add_zero]
            have : N - (pre ++ [c]).length = cs.length := by omega
            rw [this]
        · exact Nat.le_add_right _ _
      have h3 : 2 ^ (c :: cs).length = 2 ^ cs.length + 2 ^ cs.length := by
        simp only [List.length_cons, pow_succ]
        omega
      rw [h3]
      generalize 2 ^ cs.length = t at *
      omega

end jeffs

/-! ## jeffs.cpp: the work queue -/

namespace jeffs

theorem queue_fuel_append (A B : suffix_queue) :
    queue_fuel (A ++ B) = queue_fuel A + queue_fuel B := by
  simp [queue_fuel]

theorem queue_fuel_cons (q : Word × Word) (A : suffix_queue) :
    queue_fuel (q :: A) = 2 ^ q.2.length + queue_fuel A := by
  simp [queue_fuel]

theorem mem_expand {o : bag_iteration} {root : trie_node} {q x : Word × Word} :
    x ∈ expand o root q ↔ ∃ pr, pr ≠ [] ∧ pr <+: q.2 ∧ exists_in_trie root pr = true ∧
      x = (q.1 ++ pr, q.2.drop pr.length) := by
  unfold expand
  simp only [List.mem_map, (o.perm _).mem_iff, mem_all_prefixes_of]
  constructor
  · rintro ⟨pr, ⟨h1, h2, h3⟩, rfl⟩
    exact ⟨pr, h1, h2, h3, rfl⟩
  · rintro ⟨pr, h1, h2, h3, rfl⟩
    exact ⟨pr, ⟨h1, h2, h3⟩, rfl⟩

/-- The items pushed for a work item weigh less than the item. -/
theorem queue_fuel_expand (o : bag_iteration) (root : trie_node) (q : Word × Word) :
    queue_fuel (expand o root q) + 1 ≤ 2 ^ q.2.length := by
  have hperm : ((o.order (all_prefixes_of root q.2)).map
      (fun x => 2 ^ (q.2.length - x.length))).sum
      = ((all_prefixes_of root q.2).map (fun x => 2 ^ (q.2.length - x.length))).sum :=
    ((o.perm _).map _).sum_eq
  have hw := weight_all_prefixes_from q.2.length q.2 root [] [] (by simp)
  have heq : queue_fuel (expand o root q)
      = ((o.order (all_prefixes_of root q.2)).map
          (fun x => 2 ^ (q.2.length - x.length))).sum := by
    unfold queue_fuel expand
    rw [List.map_map]
    congr 1
    apply List.map_congr_left
    intro x _
    simp
  rw [heq, hperm]
  unfold all_prefixes_of
  simpa using hw

theorem iteration_Q (o : bag_iteration) (root : trie_node) (st : loop_state)
    (q : Word × Word) (rest : suffix_queue) :
    (iteration o root st q rest).Q = rest ++ expand o root q := rfl

/-- Within `queue_fuel Q` iterations the queue is empty: the loop is left. -/
theorem run_iterations_drains (o : bag_iteration) (root : trie_node) :
    ∀ (n : Nat) (st : loop_state), queue_fuel st.Q ≤ n →
      (run_iterations o root n st).Q = [] := by
  intro n
  induction n with
  | zero =>
    intro st h
    simp only [run_iterations]
    cases hQ : st.Q with
    | nil => rfl
    | cons q rest =>
      rw [hQ, queue_fuel_cons] at h
      have : 1 ≤ 2 ^ q.2.length := Nat.one_le_two_pow
      omega
  | succ n ih =>
    intro st h
    simp only [run_iterations]
    cases hQ : st.Q with
    | nil => simpa using hQ
    | cons q rest =>
      simp only
      apply ih
      rw [iteration_Q, queue_fuel_append]
      rw [hQ, queue_fuel_cons] at h
      have := queue_fuel_expand o root q
      omega

/-- A property kept by every iteration holds after any number of iterations. -/
theorem run_iterations_invariant (o : bag_iteration) (root : trie_node)
    (P : loop_state → Prop)
    (hstep : ∀ st q rest, st.Q = q :: rest → P st → P (iteration o root st q rest)) :
    ∀ (n : Nat) (st : loop_state), P st → P (run_iterations o root n st) := by
  intro n
  induction n with
  | zero => intro st h; exact h
  | succ n ih =>
    intro st h
    simp only [run_iterations]
    cases hQ : st.Q with
    | nil => exact h
    | cons q rest => exact ih _ (hstep st q rest hQ h)

/-- The member function `process_work_queue` returns, and what it returns is read off
the state in which the loop is left with an empty queue. -/
theorem process_work_queue_eq (o : bag_iteration) (s : concatenated_word_challenge) :
    ∃ st, st = run_iterations o s.root (queue_fuel s.Q) ⟨[], [], [], s.Q⟩ ∧ st.Q = [] ∧
      process_work_queue o s
        = some ((st.first_longest, st.second_longest, st.all_words.length), ⟨s.root, []⟩) := by
  refine ⟨_, rfl, run_iterations_drains o s.root _ _ (le_refl _), ?_⟩
  have h := run_iterations_drains o s.root (queue_fuel s.Q) ⟨[], [], [], s.Q⟩ (le_refl _)
  unfold process_work_queue
  simp only
  split
  · rfl
  · rename_i h'
    rw [h] at h'
    cases h'

end jeffs

namespace jeffs

theorem record_word_Q (st : loop_state) (w : Word) : (record_word st w).Q = st.Q := by
  unfold record_word
  split
  · rfl
  · split <;> rfl

theorem record_word_all_words (st : loop_state) (w : Word) :
    (record_word st w).all_words = bag_insert st.all_words w := by
  unfold record_word
  split
  · rfl
  · split <;> rfl

/-- Recording a non-empty word keeps the invariant of the tracker. -/
theorem record_word_inv {st : loop_state} (h : tracker_inv st) {w : Word} (hw : w ≠ []) :
    tracker_inv (record_word st w) := by
  have hwpos : 0 < w.length := List.length_pos.2 hw
  unfold record_word
  by_cases h1 : w.length > st.first_longest.length
  · simp only [h1, if_true]
    refine ⟨h.queue_ne, ?_, nodup_bag_insert w h.nodup, Or.inr (mem_bag_insert.2 (Or.inr rfl)),
      ?_, ?_, ?_⟩
    · intro x hx
      rcases mem_bag_insert.1 hx with hx | rfl
      · exact h.words_ne x hx
      · exact hw
    · intro x hx
      rcases mem_bag_insert.1 hx with hx | rfl
      · exact le_of_lt (lt_of_le_of_lt (h.first_max x hx) h1)
      · exact le_refl _
    · rcases h.first_mem with ⟨hf, ha⟩ | hf
      · left
        refine ⟨hf, ?_⟩
        intro x hx
        rcases mem_bag_insert.1 hx with hx | rfl
        · simp [ha] at hx
        · rfl
      · right
        refine ⟨mem_bag_insert.2 (Or.inl hf), ?_⟩
        intro heq
        simp only at heq
        rw [heq] at h1
        exact lt_irrefl _ h1
    · intro x hx hne
      rcases mem_bag_insert.1 hx with hx | rfl
      · exact h.first_max x hx
      · exact absurd rfl hne
  · simp only [h1, if_false]
    have hfirst : st.first_longest ∈ st.all_words := by
      rcases h.first_mem with ⟨hf, -⟩ | hf
      · rw [hf] at h1
        simp only [List.length_nil, gt_iff_lt] at h1
        exact absurd hwpos h1
      · exact hf
    by_cases h2 : (decide (w.length > st.second_longest.length) && (w != st.first_longest))
        = true
    · simp only [h2, if_true]
      simp only [Bool.and_eq_true, decide_eq_true_eq, bne_iff_ne, ne_eq] at h2
      refine ⟨h.queue_ne, ?_, nodup_bag_insert w h.nodup, Or.inr (mem_bag_insert.2 (Or.inl hfirst)),
        ?_, Or.inr ⟨mem_bag_insert.2 (Or.inr rfl), h2.2⟩, ?_⟩
      · intro x hx
        rcases mem_bag_insert.1 hx with hx | rfl
        · exact h.words_ne x hx
        · exact hw
      · intro x hx
        rcases mem_bag_insert.1 hx with hx | rfl
        · exact h.first_max x hx
        · exact not_lt.1 h1
      · intro x hx hne
        rcases mem_bag_insert.1 hx with hx | rfl
        · exact le_of_lt (lt_of_le_of_lt (h.second_max x hx hne) h2.1)
        · exact le_refl _
    · simp only [h2]
      simp only [Bool.and_eq_true, decide_eq_true_eq, bne_iff_ne, ne_eq, not_and,
        not_not] at h2
      have hcase : w = st.first_longest ∨ w.length ≤ st.second_longest.length := by
        by_cases hl : w.length > st.second_longest.length
        · exact Or.inl (h2 hl)
        · exact Or.inr (not_lt.1 hl)
      refine ⟨h.queue_ne, ?_, nodup_bag_insert w h.nodup, Or.inr (mem_bag_insert.2 (Or.inl hfirst)),
        ?_, ?_, ?_⟩
      · intro x hx
        rcases mem_bag_insert.1 hx with hx | rfl
        · exact h.words_ne x hx
        · exact hw
      · intro x hx
        rcases mem_bag_insert.1 hx with hx | rfl
        · exact h.first_max x hx
        · exact not_lt.1 h1
      · rcases h.second_mem with ⟨hs, hall⟩ | ⟨hs, hne⟩
        · left
          refine ⟨hs, ?_⟩
          intro x hx
          rcases mem_bag_insert.1 hx with hx | rfl
          · exact hall x hx
          · rcases hcase with hc | hc
            · exact hc
            · rw [hs] at hc
              simp only [List.length_nil] at hc
              omega
        · exact Or.inr ⟨mem_bag_insert.2 (Or.inl hs), hne⟩
      · intro x hx hne
        rcases mem_bag_insert.1 hx with hx | rfl
        · exact h.second_max x hx hne
        · rcases hcase with hc | hc
          · exact absurd hc hne
          · exact hc

/-- Every iteration of the loop keeps the invariant of the tracker. -/
theorem iteration_tracker_inv (o : bag_iteration) (root : trie_node) (st : loop_state)
    (q : Word × Word) (rest : suffix_queue) (hQ : st.Q = q :: rest) (h : tracker_inv st) :
    tracker_inv (iteration o root st q rest) := by
  have hq : q.1 ++ q.2 ≠ [] := h.queue_ne q (by simp [hQ])
  have h1 : tracker_inv (if exists_in_trie root q.2 then record_word st (q.1 ++ q.2) else st) := by
    split
    · exact record_word_inv h hq
    · exact h
  unfold iteration
  refine ⟨?_, h1.words_ne, h1.nodup, h1.first_mem, h1.first_max, h1.second_mem, h1.second_max⟩
  intro x hx
  simp only [List.mem_append] at hx
  rcases hx with hx | hx
  · exact h.queue_ne x (by simp [hQ, hx])
  · obtain ⟨pr, hpr, -, -, rfl⟩ := mem_expand.1 hx
    simp [hpr]

/-- The items that the constructor leaves in the queue have a non-empty suffix. -/
theorem ctor_queue_suffix_ne (input : List Word) :
    ∀ q ∈ (concatenated_word_challenge.ctor input).Q, q.2 ≠ [] := by
  unfold concatenated_word_challenge.ctor
  suffices H : ∀ (s : concatenated_word_challenge), (∀ q ∈ s.Q, q.2 ≠ []) →
      ∀ q ∈ (input.foldl add_word s).Q, q.2 ≠ [] from H _ (by simp)
  induction input with
  | nil => intro s hs; simpa using hs
  | cons w l ih =>
    intro s hs
    simp only [List.foldl_cons]
    apply ih
    intro q hq
    simp only [add_word, List.mem_append] at hq
    rcases hq with hq | hq
    · exact hs q hq
    · obtain ⟨u, v, -, hv, -, -, hb⟩ := (mem_pushed w s.root [] q.1 q.2).1 hq
      rw [hb]
      exact hv

/-- The invariant of the tracker holds in the state in which the loop is left, whatever
the input. -/
theorem tracker_inv_run (o : bag_iteration) (input : List Word) (n : Nat) :
    tracker_inv (run_iterations o (concatenated_word_challenge.ctor input).root n
      ⟨[], [], [], (concatenated_word_challenge.ctor input).Q⟩) := by
  apply run_iterations_invariant o _ tracker_inv (iteration_tracker_inv o _)
  refine ⟨?_, by simp, by simp, Or.inl ⟨rfl, rfl⟩, by simp, Or.inl ⟨rfl, by simp⟩, by simp⟩
  intro q hq
  have := ctor_queue_suffix_ne input q hq
  simp [this]

end jeffs

namespace jeffs

/-- The call returns, with an empty queue, what the state in which the loop is left
holds. -/
theorem challenge_eq (o : bag_iteration) (input : List Word) :
    (final_state o input).Q = [] ∧
      challenge o input = some ((final_state o input).first_longest,
        (final_state o input).second_longest, (final_state o input).all_words.length) := by
  obtain ⟨st, hst, hQ, h⟩ := process_work_queue_eq o (concatenated_word_challenge.ctor input)
  have hfs : final_state o input = st := hst.symm
  rw [hfs]
  refine ⟨hQ, ?_⟩
  simp [challenge, concatenated_word_challenge.call, h]

theorem tracker_inv_final (o : bag_iteration) (input : List Word) :
    tracker_inv (final_state o input) :=
  tracker_inv_run o input _

/-- In a state that satisfies the invariant, the second longest word is no longer than
the longest. -/
theorem tracker_inv.second_le {st : loop_state} (h : tracker_inv st) :
    st.second_longest.length ≤ st.first_longest.length := by
  rcases h.second_mem with ⟨hs, -⟩ | ⟨hs, -⟩
  · simp [hs]
  · exact h.first_max _ hs

/-- In a state that satisfies the invariant, a non-empty second longest word means two
words recorded. -/
theorem tracker_inv.two_le {st : loop_state} (h : tracker_inv st)
    (hs : st.second_longest ≠ []) : 2 ≤ st.all_words.length := by
  rcases h.second_mem with ⟨hs', -⟩ | ⟨hmem, hne⟩
  · exact absurd hs' hs
  · have hf : st.first_longest ∈ st.all_words := by
      rcases h.first_mem with ⟨-, ha⟩ | hf
      · simp [ha] at hmem
      · exact hf
    have hsub : [st.second_longest, st.first_longest].Subperm st.all_words := by
      apply List.subperm_of_subset
      · simp [hne]
      · intro x hx
        simp only [List.mem_cons, List.mem_singleton, List.not_mem_nil, or_false] at hx
        rcases hx with rfl | rfl
        · exact hmem
        · exact hf
    simpa using hsub.length_le

/-- In a state that satisfies the invariant, the two words are equal only when both are
empty. -/
theorem tracker_inv.distinct {st : loop_state} (h : tracker_inv st)
    (heq : st.second_longest = st.first_longest) :
    st.first_longest = [] ∧ st.second_longest = [] := by
  rcases h.second_mem with ⟨hs, -⟩ | ⟨-, hne⟩
  · exact ⟨by rw [← heq, hs], hs⟩
  · exact absurd heq hne

end jeffs

/-! ## jeffs.cpp: claims on the two longest words -/

/-- C6. For every input list of words shorter than `2 ^ 32` characters, made of characters
with the codes `0x01` to `0x7f`, and every iteration order of the bags,
`process_work_queue` returns a result whose longest word is at least as long as its second
longest word, and whose second longest word is empty when the count is below two. -/
theorem second_longest_le_longest (o : jeffs.bag_iteration) (input : List Word)
    (_hc : ∀ w ∈ input, seven_bit w) (_hlen : ∀ w ∈ input, w.length < 2 ^ 32) :
    ∃ longest second count, jeffs.challenge o input = some (longest, second, count) ∧
      second.length ≤ longest.length ∧ (count < 2 → second = []) := by
  have hinv := jeffs.tracker_inv_final o input
  refine ⟨_, _, _, (jeffs.challenge_eq o input).2, hinv.second_le, ?_⟩
  intro hlt
  by_contra hne
  have := hinv.two_le hne
  omega

set_option maxRecDepth 1000000 in
/-- C6, at the unsorted list `b, a, ab, Ab, ab` with a duplicate and an uppercase letter. -/
theorem second_longest_le_longest_witness :
    (∀ w ∈ ([['b'], ['a'], ['a', 'b'], ['A', 'b'], ['a', 'b']] : List Word), seven_bit w) ∧
    (∀ w ∈ ([['b'], ['a'], ['a', 'b'], ['A', 'b'], ['a', 'b']] : List Word),
      w.length < 2 ^ 32) ∧
    ∃ longest second count,
      jeffs.challenge jeffs.insertion_order [['b'], ['a'], ['a', 'b'], ['A', 'b'], ['a', 'b']]
        = some (longest, second, count) ∧
      second.length ≤ longest.length ∧ (count < 2 → second = []) :=
  ⟨by decide, by decide,
    second_longest_le_longest jeffs.insertion_order _ (by decide) (by decide)⟩

/-- C7. For every input list of words shorter than `2 ^ 32` characters, made of characters
with the codes `0x01` to `0x7f`, and every iteration order of the bags, after any number
of iterations of the loop of `process_work_queue`, and in the result returned,
`second_longest` equals `first_longest` only when both are empty. -/
theorem second_longest_distinct (o : jeffs.bag_iteration) (input : List Word)
    (_hc : ∀ w ∈ input, seven_bit w) (_hlen : ∀ w ∈ input, w.length < 2 ^ 32) :
    (∀ n : Nat,
      (jeffs.run_iterations o (jeffs.concatenated_word_challenge.ctor input).root n
          ⟨[], [], [], (jeffs.concatenated_word_challenge.ctor input).Q⟩).second_longest
        = (jeffs.run_iterations o (jeffs.concatenated_word_challenge.ctor input).root n
          ⟨[], [], [], (jeffs.concatenated_word_challenge.ctor input).Q⟩).first_longest →
      (jeffs.run_iterations o (jeffs.concatenated_word_challenge.ctor input).root n
          ⟨[], [], [], (jeffs.concatenated_word_challenge.ctor input).Q⟩).first_longest = [] ∧
      (jeffs.run_iterations o (jeffs.concatenated_word_challenge.ctor input).root n
          ⟨[], [], [], (jeffs.concatenated_word_challenge.ctor input).Q⟩).second_longest = []) ∧
    ∃ longest second count, jeffs.challenge o input = some (longest, second, count) ∧
      (second = longest → longest = [] ∧ second = []) := by
  constructor
  · intro n
    exact (jeffs.tracker_inv_run o input n).distinct
  · exact ⟨_, _, _, (jeffs.challenge_eq o input).2, (jeffs.tracker_inv_final o input).distinct⟩

set_option maxRecDepth 1000000 in
/-- C7, at the list `a, b, ab, ab, a, aab`, in which `ab` stands twice and `aab` is reached
through the two decompositions `a + ab` and `a + a + b`. -/
theorem second_longest_distinct_witness :
    (∀ w ∈ ([['a'], ['b'], ['a', 'b'], ['a', 'b'], ['a'], ['a', 'a', 'b']] : List Word),
      seven_bit w) ∧
    (∀ w ∈ ([['a'], ['b'], ['a', 'b'], ['a', 'b'], ['a'], ['a', 'a', 'b']] : List Word),
      w.length < 2 ^ 32) ∧
    jeffs.challenge jeffs.insertion_order
        [['a'], ['b'], ['a', 'b'], ['a', 'b'], ['a'], ['a', 'a', 'b']]
      = some (['a', 'a', 'b'], ['a', 'b'], 2) ∧
    ∃ longest second count,
      jeffs.challenge jeffs.insertion_order
          [['a'], ['b'], ['a', 'b'], ['a', 'b'], ['a'], ['a', 'a', 'b']]
        = some (longest, second, count) ∧
      (second = longest → longest = [] ∧ second = []) :=
  ⟨by decide, by decide, by decide,
    (second_longest_distinct jeffs.insertion_order _ (by decide) (by decide)).2⟩

/-! ## Inputs: lowercase words and sorted lists -/

theorem lowercase_append {u v : Word} : lowercase (u ++ v) ↔ lowercase u ∧ lowercase v := by
  simp only [lowercase, List.mem_append]
  constructor
  · intro h
    exact ⟨fun c hc => h c (Or.inl hc), fun c hc => h c (Or.inr hc)⟩
  · rintro ⟨h1, h2⟩ c (hc | hc)
    · exact h1 c hc
    · exact h2 c hc

theorem prefix_lowercase {u w : Word} (h : u <+: w) (hw : lowercase w) : lowercase u := by
  obtain ⟨v, rfl⟩ := h
  exact (lowercase_append.1 hw).1

theorem lowercase_drop {w : Word} (n : Nat) (hw : lowercase w) : lowercase (w.drop n) := by
  rw [← List.take_append_drop n w] at hw
  exact (lowercase_append.1 hw).2

/-- A proper prefix of a word comes before it in the lexicographic order. -/
theorem proper_prefix_lt : ∀ {u w : Word}, u <+: w → u ≠ w → u < w := by
  intro u
  induction u with
  | nil =>
    intro w _ hne
    cases w with
    | nil => exact absurd rfl hne
    | cons c cs => exact List.nil_lt_cons c cs
  | cons a u ih =>
    intro w hpre hne
    cases w with
    | nil => simp at hpre
    | cons c cs =>
      obtain ⟨rfl, hpre'⟩ := List.cons_prefix_cons.1 hpre
      have hne' : u ≠ cs := fun h => hne (by rw [h])
      exact List.Lex.cons (ih hpre' hne')

/-- In a lexicographically sorted list no word stands before one of its proper
prefixes. -/
theorem prefixes_first_of_sorted {ws : List Word} (h : ws.Sorted (· ≤ ·)) :
    prefixes_first ws := by
  unfold prefixes_first
  refine List.Pairwise.imp ?_ h
  intro a b hab hpre
  exact absurd (proper_prefix_lt hpre.1 hpre.2) (not_lt.2 hab)

namespace jeffs

/-- The table sends the letters `a` to `z` to the slots `0` to `25`. -/
theorem LUT_letter (n : Nat) (h1 : 97 ≤ n) (h2 : n ≤ 122) : LUT n = n - 97 := by
  interval_cases n <;> decide

theorem index_lowercase {c : Char} (h : 'a' ≤ c ∧ c ≤ 'z') : index c = c.toNat - 97 := by
  have h1 : 97 ≤ c.toNat := h.1
  have h2 : c.toNat ≤ 122 := h.2
  exact LUT_letter _ h1 h2

/-- Two lowercase letters with the same slot are the same letter. -/
theorem index_injective {c d : Char} (hc : 'a' ≤ c ∧ c ≤ 'z') (hd : 'a' ≤ d ∧ d ≤ 'z')
    (h : index d = index c) : d = c := by
  rw [index_lowercase hc, index_lowercase hd] at h
  have h1 : 97 ≤ c.toNat := hc.1
  have h2 : 97 ≤ d.toNat := hd.1
  have : d.toNat = c.toNat := by omega
  rw [← Char.ofNat_toNat d, ← Char.ofNat_toNat c, this]

end jeffs

/-! ## jeffs.cpp: the constructor -/

namespace jeffs

theorem add_word_root (s : concatenated_word_challenge) (w : Word) :
    (add_word s w).root = (add_word_from s.root [] w).1 := rfl

theorem add_word_Q (s : concatenated_word_challenge) (w : Word) :
    (add_word s w).Q = s.Q ++ (add_word_from s.root [] w).2 := rfl

/-- The words added are in the trie, and so are those that were in it before. -/
theorem exists_foldl_add_word (l : List Word) :
    ∀ (s : concatenated_word_challenge) (x : Word),
      exists_in_trie s.root x = true ∨ x ∈ l →
      exists_in_trie (l.foldl add_word s).root x = true := by
  induction l with
  | nil =>
    intro s x h
    simpa using h
  | cons w l ih =>
    intro s x h
    simp only [List.foldl_cons]
    apply ih
    rcases h with h | h
    · exact Or.inl (exists_add_of_exists w _ _ _ h)
    · rcases List.mem_cons.1 h with rfl | h
      · exact Or.inl (exists_add_self _ _ _)
      · exact Or.inr h

/-- Among lowercase words, the trie holds no word that was not added. -/
theorem exists_foldl_add_word_cases (l : List Word) (hl : ∀ w ∈ l, lowercase w) :
    ∀ (s : concatenated_word_challenge) (x : Word), lowercase x →
      exists_in_trie (l.foldl add_word s).root x = true →
      exists_in_trie s.root x = true ∨ x ∈ l := by
  induction l with
  | nil =>
    intro s x _ h
    exact Or.inl h
  | cons w l ih =>
    intro s x hx h
    simp only [List.foldl_cons] at h
    rcases ih (fun w' hw' => hl w' (List.mem_cons_of_mem _ hw')) _ x hx h with h | h
    · rcases exists_add_cases w s.root [] x
        (fun c hc d hd => index_injective (hl w (by simp) c hc) (hx d hd)) h with h | h
      · exact Or.inl h
      · exact Or.inr (by simp [h])
    · exact Or.inr (List.mem_cons_of_mem _ h)

theorem exists_ctor_of_mem {input : List Word} {x : Word} (h : x ∈ input) :
    exists_in_trie (concatenated_word_challenge.ctor input).root x = true :=
  exists_foldl_add_word input _ x (Or.inr h)

/-- The membership oracle on lowercase words: after the constructor, a lowercase word is
in the trie exactly when it is in the input. -/
theorem exists_ctor_iff {input : List Word} (hl : ∀ w ∈ input, lowercase w) {x : Word}
    (hx : lowercase x) :
    exists_in_trie (concatenated_word_challenge.ctor input).root x = true ↔ x ∈ input := by
  constructor
  · intro h
    rcases exists_foldl_add_word_cases input hl _ x hx h with h | h
    · simp [exists_in_new] at h
    · exact h
  · exact exists_ctor_of_mem

/-- The queue after the words of `ws`: the items there before, and for each word added
one item for each split into a prefix that was in the trie when the word was added and a
non-empty rest. -/
theorem mem_foldl_add_word_Q (ws : List Word) :
    ∀ (s : concatenated_word_challenge) (a b : Word),
      (a, b) ∈ (ws.foldl add_word s).Q ↔
        (a, b) ∈ s.Q ∨ ∃ l r, ws = l ++ (a ++ b) :: r ∧ b ≠ [] ∧
          exists_in_trie (l.foldl add_word s).root a = true := by
  induction ws with
  | nil =>
    intro s a b
    simp
  | cons x ws ih =>
    intro s a b
    simp only [List.foldl_cons]
    rw [ih, add_word_Q, List.mem_append, mem_pushed]
    constructor
    · rintro ((h | ⟨u, v, hx, hv, hu, ha, hb⟩) | ⟨l, r, hws, hb, hex⟩)
      · exact Or.inl h
      · right
        simp only [List.nil_append] at ha
        subst ha hb
        exact ⟨[], ws, by simp [hx], hv, hu⟩
      · right
        exact ⟨x :: l, r, by simp [hws], hb, hex⟩
    · rintro (h | ⟨l, r, hws, hb, hex⟩)
      · exact Or.inl (Or.inl h)
      · cases l with
        | nil =>
          simp only [List.nil_append, List.cons.injEq] at hws
          left
          right
          exact ⟨a, b, hws.1, hb, hex, by simp, rfl⟩
        | cons y l =>
          simp only [List.cons_append, List.cons.injEq] at hws
          obtain ⟨rfl, hws⟩ := hws
          right
          exact ⟨l, r, hws, hb, hex⟩

theorem mem_ctor_Q {input : List Word} {a b : Word} :
    (a, b) ∈ (concatenated_word_challenge.ctor input).Q ↔
      ∃ l r, input = l ++ (a ++ b) :: r ∧ b ≠ [] ∧
        exists_in_trie (concatenated_word_challenge.ctor l).root a = true := by
  unfold concatenated_word_challenge.ctor
  rw [mem_foldl_add_word_Q]
  simp

/-- Every item that the constructor enqueues for lowercase input splits a word of the
input into a word of the input and a non-empty rest. -/
theorem ctor_Q_sound {input : List Word} (hl : ∀ w ∈ input, lowercase w) {a b : Word}
    (h : (a, b) ∈ (concatenated_word_challenge.ctor input).Q) :
    a ++ b ∈ input ∧ a ∈ input ∧ b ≠ [] := by
  obtain ⟨l, r, hin, hb, hex⟩ := mem_ctor_Q.1 h
  have hab : a ++ b ∈ input := by rw [hin]; simp
  have hll : ∀ w ∈ l, lowercase w := fun w hw => hl w (by rw [hin]; simp [hw])
  have ha : a ∈ l := (exists_ctor_iff hll (lowercase_append.1 (hl _ hab)).1).1 hex
  exact ⟨hab, by rw [hin]; simp [ha], hb⟩

/-- When no word stands before one of its proper prefixes, the constructor enqueues an
item for every split of an input word into an input word and a non-empty rest. -/
theorem ctor_Q_complete {input : List Word} (hp : prefixes_first input) {u v : Word}
    (hw : u ++ v ∈ input) (hu : u ∈ input) (hv : v ≠ []) :
    (u, v) ∈ (concatenated_word_challenge.ctor input).Q := by
  obtain ⟨l, r, hin⟩ := List.mem_iff_append.1 hw
  refine mem_ctor_Q.2 ⟨l, r, hin, hv, exists_ctor_of_mem ?_⟩
  have hne : u ≠ u ++ v := by
    intro h
    have := congrArg List.length h
    simp only [List.length_append] at this
    exact hv (List.length_eq_zero.1 (by omega))
  rw [hin] at hu hp
  rcases List.mem_append.1 hu with hu | hu
  · exact hu
  · rcases List.mem_cons.1 hu with hu | hu
    · exact absurd hu hne
    · unfold prefixes_first at hp
      have h1 := (List.pairwise_append.1 hp).2.1
      have h2 := (List.pairwise_cons.1 h1).1 u hu
      exact absurd ⟨List.prefix_append u v, hne⟩ h2

end jeffs

/-! ## jeffs.cpp: soundness and completeness of the search -/

namespace jeffs

theorem iteration_all_words (o : bag_iteration) (root : trie_node) (st : loop_state)
    (q : Word × Word) (rest : suffix_queue) :
    (iteration o root st q rest).all_words
      = if exists_in_trie root q.2 then bag_insert st.all_words (q.1 ++ q.2)
        else st.all_words := by
  unfold iteration
  split
  · simp [record_word_all_words]
  · rfl

theorem prefix_append_drop {pr s : Word} (h : pr <+: s) : pr ++ s.drop pr.length = s := by
  obtain ⟨t, rfl⟩ := h
  simp

/-- Every iteration keeps the loop sound, the trie being that of the lowercase input. -/
theorem iteration_sound_inv (o : bag_iteration) {ws : List Word}
    (hl : ∀ w ∈ ws, lowercase w) (st : loop_state) (q : Word × Word) (rest : suffix_queue)
    (hQ : st.Q = q :: rest) (h : sound_inv ws st) :
    sound_inv ws (iteration o (concatenated_word_challenge.ctor ws).root st q rest) := by
  obtain ⟨hq1, hq2⟩ := h.queue q (by simp [hQ])
  have hlq := lowercase_append.1 (hl _ hq1)
  constructor
  · intro x hx
    rw [iteration_Q, List.mem_append] at hx
    rcases hx with hx | hx
    · exact h.queue x (by simp [hQ, hx])
    · obtain ⟨pr, -, hpre, hex, rfl⟩ := mem_expand.1 hx
      have hpr : pr ∈ ws := (exists_ctor_iff hl (prefix_lowercase hpre hlq.2)).1 hex
      constructor
      · simp only [List.append_assoc, prefix_append_drop hpre]
        exact hq1
      · exact concat_of_mono (by norm_num)
          (concat_of_append hq2 (concat_of_one_of_mem hpr))
  · intro w hw
    rw [iteration_all_words] at hw
    split at hw
    · rename_i hex
      rcases mem_bag_insert.1 hw with hw | rfl
      · exact h.words w hw
      · have hs : q.2 ∈ ws := (exists_ctor_iff hl hlq.2).1 hex
        exact ⟨hq1, concat_of_append hq2 (concat_of_one_of_mem hs)⟩
    · exact h.words w hw

/-- Every iteration keeps the loop complete, the words of the input being non-empty. -/
theorem iteration_complete_inv (o : bag_iteration) {ws : List Word}
    (hne : ∀ w ∈ ws, w ≠ []) (st : loop_state) (q : Word × Word) (rest : suffix_queue)
    (hQ : st.Q = q :: rest) (h : complete_inv ws st) :
    complete_inv ws (iteration o (concatenated_word_challenge.ctor ws).root st q rest) := by
  intro w hw hc
  rw [iteration_all_words, iteration_Q]
  have keep : w ∈ st.all_words →
      w ∈ (if exists_in_trie (concatenated_word_challenge.ctor ws).root q.2 = true then
        bag_insert st.all_words (q.1 ++ q.2) else st.all_words) := by
    intro hmem
    split
    · exact mem_bag_insert.2 (Or.inl hmem)
    · exact hmem
  rcases h w hw hc with hmem | ⟨q', hq', hq'w, hq'c⟩
  · exact Or.inl (keep hmem)
  · rw [hQ] at hq'
    rcases List.mem_cons.1 hq' with rfl | hq'
    · rcases concat_of_one_cases hq'c with hs | hs
      · left
        rw [if_pos (exists_ctor_of_mem hs)]
        exact mem_bag_insert.2 (Or.inr hq'w.symm)
      · right
        obtain ⟨u, v, hu, hv, huv⟩ := concat_of_succ_split hs
        refine ⟨(q'.1 ++ u, v), ?_, ?_, hv⟩
        · apply List.mem_append_right
          apply mem_expand.2
          refine ⟨u, hne u hu, ?_, exists_ctor_of_mem hu, ?_⟩
          · rw [huv]
            exact List.prefix_append u v
          · rw [huv]
            simp
        · simp only [List.append_assoc, ← huv]
          exact hq'w
    · exact Or.inr ⟨q', List.mem_append_left _ hq', hq'w, hq'c⟩

/-- The state in which the loop is left on the list `ws`, for lowercase non-empty words
none of which stands before one of its proper prefixes: the words recorded are exactly the
composite words of `ws`. -/
theorem challenge_spec (o : bag_iteration) {ws : List Word} (hl : ∀ w ∈ ws, lowercase w)
    (hne : ∀ w ∈ ws, w ≠ []) (hp : prefixes_first ws) (w : Word) :
    w ∈ (final_state o ws).all_words ↔ w ∈ ws ∧ composite ws w := by
  have hQ := (challenge_eq o ws).1
  have hsound : sound_inv ws (final_state o ws) := by
    apply run_iterations_invariant o _ (sound_inv ws) (iteration_sound_inv o hl)
    constructor
    · intro q hq
      obtain ⟨h1, h2, -⟩ := ctor_Q_sound hl (a := q.1) (b := q.2) hq
      exact ⟨h1, concat_of_one_of_mem h2⟩
    · simp
  have hcomplete : complete_inv ws (final_state o ws) := by
    apply run_iterations_invariant o _ (complete_inv ws) (iteration_complete_inv o hne)
    intro w hw hc
    right
    obtain ⟨u, v, hu, hv, rfl⟩ := concat_of_succ_split hc
    have hvne : v ≠ [] := by
      have := concat_of_length_ge (m := 1)
        (fun d hd => List.length_pos.2 (hne d hd)) hv
      intro h
      simp [h] at this
    exact ⟨(u, v), ctor_Q_complete hp hw hu hvne, rfl, hv⟩
  constructor
  · exact hsound.words w
  · rintro ⟨hw, hc⟩
    rcases hcomplete w hw hc with hmem | ⟨q, hq, -⟩
    · exact hmem
    · simp [hQ] at hq

end jeffs

/-! ## jeffs.cpp: claims on sorted input -/

namespace jeffs

/-- The split search of `catwords.cpp` decides compositeness: a value it returns for a
word at least as long as the shortest word tells whether the word is composite. -/
theorem composite_iff_of_is_cat_word (D : List Word) (hne : ∀ d ∈ D, d ≠ []) (w : Word)
    (hm : (catwords.Words.load D).shortest_word_len_ ≤ w.length) (hw : w.length < 2 ^ 64)
    (b : Bool) (h : catwords.is_cat_word_ (catwords.Words.load D) w = .value b) :
    composite D w ↔ b = true := by
  obtain ⟨b', hb', hiff⟩ :=
    catwords.is_cat_word_fuel_spec D hne (w.length + 1) w (Nat.lt_succ_self _) hm hw
  have : b' = b := by
    unfold catwords.is_cat_word_ at h
    rw [hb'] at h
    exact catwords.outcome.value.inj h
  rw [← this]
  exact hiff.symm

set_option maxRecDepth 1000000 in
/-- The composite words of the input of `test()`. -/
theorem test_input_composites (w : Word) :
    w ∈ test_input ∧ composite test_input w ↔
      w = "catsdogcats".toList ∨ w = "dogcatsdog".toList ∨ w = "ratcatdogcat".toList := by
  have hne : ∀ d ∈ test_input, d ≠ [] := by decide
  have key : ∀ (x : Word) (b : Bool),
      (catwords.Words.load test_input).shortest_word_len_ ≤ x.length → x.length < 2 ^ 64 →
      catwords.is_cat_word_ (catwords.Words.load test_input) x = .value b →
      (composite test_input x ↔ b = true) :=
    fun x b h1 h2 h3 => composite_iff_of_is_cat_word test_input hne x h1 h2 b h3
  constructor
  · rintro ⟨hw, hc⟩
    have hw' : w = "cat".toList ∨ w = "cats".toList ∨ w = "catsdogcats".toList ∨
        w = "dog".toList ∨ w = "dogcatsdog".toList ∨ w = "hippopotamuses".toList ∨
        w = "rat".toList ∨ w = "ratcatdogcat".toList := by
      simpa [test_input] using hw
    rcases hw' with rfl | rfl | rfl | rfl | rfl | rfl | rfl | rfl
    · exact absurd ((key _ false (by decide) (by simp) (by decide)).1 hc) (by simp)
    · exact absurd ((key _ false (by decide) (by simp) (by decide)).1 hc) (by simp)
    · exact Or.inl rfl
    · exact absurd ((key _ false (by decide) (by simp) (by decide)).1 hc) (by simp)
    · exact Or.inr (Or.inl rfl)
    · exact absurd ((key _ false (by decide) (by simp) (by decide)).1 hc) (by simp)
    · exact absurd ((key _ false (by decide) (by simp) (by decide)).1 hc) (by simp)
    · exact Or.inr (Or.inr rfl)
  · rintro (rfl | rfl | rfl)
    · exact ⟨by decide, (key _ true (by decide) (by simp) (by decide)).2 rfl⟩
    · exact ⟨by decide, (key _ true (by decide) (by simp) (by decide)).2 rfl⟩
    · exact ⟨by decide, (key _ true (by decide) (by simp) (by decide)).2 rfl⟩

end jeffs

set_option maxRecDepth 1000000 in
/-- C4. On the input of `test()`, whatever the iteration order of the bags,
`concatenated_word_challenge` returns `("ratcatdogcat", "catsdogcats", 3)`, and neither
`hippopotamuses` nor `cats` is among the words counted. -/
theorem test_example (o : jeffs.bag_iteration) :
    jeffs.challenge o jeffs.test_input
      = some ("ratcatdogcat".toList, "catsdogcats".toList, 3) ∧
    "hippopotamuses".toList ∉ (jeffs.final_state o jeffs.test_input).all_words ∧
    "cats".toList ∉ (jeffs.final_state o jeffs.test_input).all_words := by
  have hl : ∀ w ∈ jeffs.test_input, lowercase w := by decide
  have hne : ∀ w ∈ jeffs.test_input, w ≠ [] := by decide
  have hp : prefixes_first jeffs.test_input := prefixes_first_of_sorted (by decide)
  have hinv := jeffs.tracker_inv_final o jeffs.test_input
  have hmem3 : ∀ w, w ∈ (jeffs.final_state o jeffs.test_input).all_words ↔
      w = "catsdogcats".toList ∨ w = "dogcatsdog".toList ∨ w = "ratcatdogcat".toList :=
    fun w => (jeffs.challenge_spec o hl hne hp w).trans (jeffs.test_input_composites w)
  have hperm : (jeffs.final_state o jeffs.test_input).all_words.Perm
      ["catsdogcats".toList, "dogcatsdog".toList, "ratcatdogcat".toList] := by
    rw [List.perm_ext_iff_of_nodup hinv.nodup (by decide)]
    intro w
    rw [hmem3]
    simp
  have hfirst : (jeffs.final_state o jeffs.test_input).first_longest
      = "ratcatdogcat".toList := by
    have h12 := hinv.first_max _ ((hmem3 "ratcatdogcat".toList).2 (Or.inr (Or.inr rfl)))
    rcases hinv.first_mem with ⟨-, ha⟩ | hf
    · have := (hmem3 "ratcatdogcat".toList).2 (Or.inr (Or.inr rfl))
      simp [ha] at this
    · rcases (hmem3 _).1 hf with hf | hf | hf
      · rw [hf] at h12; simp at h12
      · rw [hf] at h12; simp at h12
      · exact hf
  have hsecond : (jeffs.final_state o jeffs.test_input).second_longest
      = "catsdogcats".toList := by
    have h11 := hinv.second_max _ ((hmem3 "catsdogcats".toList).2 (Or.inl rfl))
      (by rw [hfirst]; decide)
    rcases hinv.second_mem with ⟨hs, -⟩ | ⟨hs, hne2⟩
    · rw [hs] at h11; simp at h11
    · rcases (hmem3 _).1 hs with hs | hs | hs
      · exact hs
      · rw [hs] at h11; simp at h11
      · rw [hs, hfirst] at hne2
        exact absurd rfl hne2
  have hcount : (jeffs.final_state o jeffs.test_input).all_words.length = 3 := by
    simpa using hperm.length_eq
  refine ⟨?_, ?_, ?_⟩
  · rw [(jeffs.challenge_eq o jeffs.test_input).2, hfirst, hsecond, hcount]
  · rw [hmem3]
    decide
  · rw [hmem3]
    decide

/-! ## jeffs.cpp: calling the object again -/

set_option maxRecDepth 1000000 in
/-- C10, counterexample. On the object constructed from `a, ab, b` the first call returns
`("ab", "", 1)` and a second call on the same object returns `("", "", 0)`. -/
theorem second_call_differs :
    ((jeffs.concatenated_word_challenge.ctor [['a'], ['a', 'b'], ['b']]).call
        jeffs.insertion_order).map Prod.fst = some (['a', 'b'], [], 1) ∧
    (((jeffs.concatenated_word_challenge.ctor [['a'], ['a', 'b'], ['b']]).call
        jeffs.insertion_order).bind
      (fun r => r.2.call jeffs.insertion_order)).map Prod.fst = some ([], [], 0) := by
  decide

/-- C10, amended. For every input list of words shorter than `2 ^ 32` characters, made of
characters with the codes `0x01` to `0x7f`, the first call of `operator()` returns and
leaves the work queue empty and the trie as it was; a second call on the same object
returns `("", "", 0)`, which is the result of the first call exactly when the first call
counted no word. -/
theorem second_call_returns_empty (o : jeffs.bag_iteration) (input : List Word)
    (_hc : ∀ w ∈ input, seven_bit w) (_hlen : ∀ w ∈ input, w.length < 2 ^ 32) :
    ∃ r s, (jeffs.concatenated_word_challenge.ctor input).call o = some (r, s) ∧
      s.Q = [] ∧ s.root = (jeffs.concatenated_word_challenge.ctor input).root ∧
      s.call o = some (([], [], 0), s) ∧
      ((([], [], 0) : jeffs.result) = r ↔ r.2.2 = 0) := by
  obtain ⟨st, hst, -, h⟩ :=
    jeffs.process_work_queue_eq o (jeffs.concatenated_word_challenge.ctor input)
  have hinv : jeffs.tracker_inv st := hst ▸ jeffs.tracker_inv_run o input _
  refine ⟨_, _, h, rfl, rfl, rfl, ?_⟩
  constructor
  · intro heq
    rw [← heq]
  · intro hc
    have hnil : st.all_words = [] := List.length_eq_zero.1 hc
    have hf : st.first_longest = [] := by
      rcases hinv.first_mem with ⟨hf, -⟩ | hf
      · exact hf
      · simp [hnil] at hf
    have hs : st.second_longest = [] := by
      rcases hinv.second_mem with ⟨hs, -⟩ | ⟨hs, -⟩
      · exact hs
      · simp [hnil] at hs
    simp [hf, hs, hnil]

set_option maxRecDepth 1000000 in
/-- C10 amended, at the list `a, ab, b`. -/
theorem second_call_returns_empty_witness :
    (∀ w ∈ ([['a'], ['a', 'b'], ['b']] : List Word), seven_bit w) ∧
    (∀ w ∈ ([['a'], ['a', 'b'], ['b']] : List Word), w.length < 2 ^ 32) ∧
    ∃ r s, (jeffs.concatenated_word_challenge.ctor [['a'], ['a', 'b'], ['b']]).call
          jeffs.insertion_order = some (r, s) ∧
      s.Q = [] ∧ s.root = (jeffs.concatenated_word_challenge.ctor [['a'], ['a', 'b'], ['b']]).root ∧
      s.call jeffs.insertion_order = some (([], [], 0), s) ∧
      ((([], [], 0) : jeffs.result) = r ↔ r.2.2 = 0) :=
  ⟨by decide, by decide,
    second_call_returns_empty jeffs.insertion_order _ (by decide) (by decide)⟩

/-! ## jeffs.cpp: the order of the input -/

namespace jeffs

end jeffs

namespace jeffs

end jeffs

namespace jeffs

theorem iteration_eq (o : bag_iteration) (root : trie_node) (st : loop_state)
    (q : Word × Word) (rest : suffix_queue) :
    iteration o root st q rest
      = { record_item root st q with Q := rest ++ expand o root q } := rfl

theorem record_word_with_Q (st : loop_state) (w : Word) (X : suffix_queue) :
    record_word { st with Q := X } w = { record_word st w with Q := X } := by
  unfold record_word
  split
  · rfl
  · split <;> rfl

theorem record_item_with_Q (root : trie_node) (st : loop_state) (q : Word × Word)
    (X : suffix_queue) :
    record_item root { st with Q := X } q = { record_item root st q with Q := X } := by
  unfold record_item
  split
  · exact record_word_with_Q st _ X
  · rfl

theorem foldl_record_item_with_Q (root : trie_node) (A : suffix_queue) :
    ∀ (st : loop_state) (X : suffix_queue),
      A.foldl (record_item root) { st with Q := X }
        = { A.foldl (record_item root) st with Q := X } := by
  induction A with
  | nil => intro st X; rfl
  | cons a A ih =>
    intro st X
    rw [List.foldl_cons, List.foldl_cons, record_item_with_Q root st a X, ih]

theorem with_Q_self (st : loop_state) (X : suffix_queue) (h : st.Q = X) :
    { st with Q := X } = st := by
  cases st
  simp only at h
  subst h
  rfl

theorem run_iterations_succ_cons (o : bag_iteration) (root : trie_node) (n : Nat)
    (st : loop_state) (q : Word × Word) (rest : suffix_queue) (h : st.Q = q :: rest) :
    run_iterations o root (n + 1) st = run_iterations o root n (iteration o root st q rest) := by
  simp only [run_iterations, h]

/-- The iterations that take the items `A` off the front of the queue `A ++ B`: the
tracker is updated for the items of `A` in turn, and what they push goes behind `B`. -/
theorem run_iterations_batch (o : bag_iteration) (root : trie_node) (n : Nat)
    (A : suffix_queue) :
    ∀ (B : suffix_queue) (st : loop_state), st.Q = A ++ B →
      run_iterations o root (n + A.length) st
        = run_iterations o root n
            { A.foldl (record_item root) st with Q := B ++ A.flatMap (expand o root) } := by
  induction A with
  | nil =>
    intro B st h
    simp only [List.nil_append] at h
    simp [with_Q_self st B h]
  | cons a A ih =>
    intro B st h
    have h' : st.Q = a :: (A ++ B) := by simpa using h
    have hstep : run_iterations o root (n + (a :: A).length) st
        = run_iterations o root (n + A.length) (iteration o root st a (A ++ B)) :=
      run_iterations_succ_cons o root (n + A.length) st a (A ++ B) h'
    rw [hstep, iteration_eq]
    rw [ih (B ++ expand o root a) _ (by simp)]
    rw [List.foldl_cons, foldl_record_item_with_Q root A (record_item root st a)]
    simp only [List.flatMap_cons, List.append_assoc]

/-- Once the queue is empty, further iterations change nothing. -/
theorem run_iterations_stable (o : bag_iteration) (root : trie_node) :
    ∀ (n : Nat) (st : loop_state), (run_iterations o root n st).Q = [] →
      ∀ m, n ≤ m → run_iterations o root m st = run_iterations o root n st := by
  intro n
  induction n with
  | zero =>
    intro st h m _
    simp only [run_iterations] at h
    cases m with
    | zero => rfl
    | succ m => simp [run_iterations, h]
  | succ n ih =>
    intro st h m hm
    cases m with
    | zero => omega
    | succ m =>
      simp only [run_iterations] at h ⊢
      cases hQ : st.Q with
      | nil => rfl
      | cons q rest =>
        rw [hQ] at h
        exact ih _ h m (by omega)

theorem run_iterations_eq_finish (o : bag_iteration) (root : trie_node) (st : loop_state)
    (n : Nat) (h : queue_fuel st.Q ≤ n) : run_iterations o root n st = finish o root st :=
  run_iterations_stable o root _ st (run_iterations_drains o root _ st (le_refl _)) n h

/-- Leaving the loop from a queue `A` is leaving it from the queue of the items pushed for
`A`, the tracker having been updated for the items of `A`. -/
theorem finish_level (o : bag_iteration) (root : trie_node) (st : loop_state)
    (A : suffix_queue) (h : st.Q = A) :
    finish o root st
      = finish o root
          { A.foldl (record_item root) st with Q := A.flatMap (expand o root) } := by
  have hb := run_iterations_batch o root
    (queue_fuel (A.flatMap (expand o root)) + queue_fuel A) A [] st (by simpa using h)
  simp only [List.nil_append] at hb
  rw [run_iterations_eq_finish o root st _ (by rw [h]; omega)] at hb
  rw [hb]
  exact run_iterations_eq_finish o root _ _ (by simp only; omega)

end jeffs

/-! ## jeffs.cpp: work items that stand several times in the queue -/

namespace jeffs

theorem record_item_Q (root : trie_node) (st : loop_state) (q : Word × Word) :
    (record_item root st q).Q = st.Q := by
  unfold record_item
  split
  · exact record_word_Q st _
  · rfl

/-- Recording a word that is recorded already changes nothing. -/
theorem record_word_of_mem {st : loop_state} (h : tracker_inv st) {w : Word}
    (hw : w ∈ st.all_words) : record_word st w = st := by
  have h1 : ¬ w.length > st.first_longest.length := not_lt.2 (h.first_max w hw)
  have h2 : ¬ ((decide (w.length > st.second_longest.length) && (w != st.first_longest))
      = true) := by
    simp only [Bool.and_eq_true, decide_eq_true_eq, bne_iff_ne, ne_eq, not_and, not_not]
    intro hl
    by_contra hne
    exact absurd (h.second_max w hw hne) (not_le.2 hl)
  have h3 : bag_insert st.all_words w = st.all_words := by
    unfold bag_insert
    simp [hw]
  unfold record_word
  simp only [h1, h2, if_false, h3]
  rfl

theorem record_item_inv (root : trie_node) {st : loop_state} (h : tracker_inv st)
    {q : Word × Word} (hq : q.1 ++ q.2 ≠ []) : tracker_inv (record_item root st q) := by
  unfold record_item
  split
  · exact record_word_inv h hq
  · exact h

/-- Once `w` is recorded, the items of a block that all split `w` change nothing. -/
theorem foldl_record_item_of_mem (root : trie_node) (w : Word) (B : suffix_queue) :
    ∀ (st : loop_state), tracker_inv st → w ∈ st.all_words → (∀ q ∈ B, q.1 ++ q.2 = w) →
      B.foldl (record_item root) st = st := by
  induction B with
  | nil => intro st _ _ _; rfl
  | cons q B ih =>
    intro st h hw hB
    have hq : q.1 ++ q.2 = w := hB q (by simp)
    have hsame : record_item root st q = st := by
      unfold record_item
      split
      · rw [hq]
        exact record_word_of_mem h hw
      · rfl
    simp only [List.foldl_cons, hsame]
    exact ih st h hw (fun q' hq' => hB q' (List.mem_cons_of_mem _ hq'))

theorem foldl_record_item_inv (root : trie_node) (A : suffix_queue) :
    ∀ (st : loop_state), tracker_inv st → (∀ q ∈ A, q.1 ++ q.2 ≠ []) →
      tracker_inv (A.foldl (record_item root) st) := by
  induction A with
  | nil => intro st h _; exact h
  | cons q A ih =>
    intro st h hA
    simp only [List.foldl_cons]
    exact ih _ (record_item_inv root h (hA q (by simp)))
      (fun q' hq' => hA q' (List.mem_cons_of_mem _ hq'))

theorem block_ok_word_ne {B : suffix_queue} (hB : block_ok B) :
    ∀ q ∈ B, q.1 ++ q.2 ≠ [] := by
  obtain ⟨w, hw, hall⟩ := hB
  intro q hq
  rw [hall q hq]
  exact hw

end jeffs

namespace jeffs

/-- The items pushed for a work item split the same word, with a shorter suffix. -/
theorem expand_word_and_length {o : bag_iteration} {root : trie_node} {q x : Word × Word}
    (h : x ∈ expand o root q) : x.1 ++ x.2 = q.1 ++ q.2 ∧ x.2.length < q.2.length := by
  obtain ⟨pr, hpr, hpre, -, rfl⟩ := mem_expand.1 h
  constructor
  · simp only [List.append_assoc, prefix_append_drop hpre]
  · have h1 : 0 < pr.length := List.length_pos.2 hpr
    have h2 : pr.length ≤ q.2.length := hpre.length_le
    simp only [List.length_drop]
    omega

theorem block_ok_flatMap_expand (o : bag_iteration) (root : trie_node) {B : suffix_queue}
    (hB : block_ok B) : block_ok (B.flatMap (expand o root)) := by
  obtain ⟨w, hw, hall⟩ := hB
  refine ⟨w, hw, ?_⟩
  intro x hx
  obtain ⟨q, hq, hxq⟩ := List.mem_flatMap.1 hx
  rw [(expand_word_and_length hxq).1]
  exact hall q hq

end jeffs

/-! ## jeffs.cpp: the list without its duplicates -/

theorem dedup_first_snoc (l : List Word) (w : Word) :
    dedup_first (l ++ [w])
      = if w ∈ dedup_first l then dedup_first l else dedup_first l ++ [w] := by
  simp [dedup_first, List.foldl_append]

theorem mem_dedup_first {l : List Word} {x : Word} : x ∈ dedup_first l ↔ x ∈ l := by
  induction l using List.reverseRecOn with
  | nil => simp [dedup_first]
  | append_singleton l w ih =>
    rw [dedup_first_snoc]
    split
    · rename_i hw
      rw [ih, List.mem_append, List.mem_singleton]
      constructor
      · exact Or.inl
      · rintro (h | rfl)
        · exact h
        · exact ih.1 hw
    · simp [ih]

namespace jeffs

theorem ctor_snoc (l : List Word) (w : Word) :
    concatenated_word_challenge.ctor (l ++ [w])
      = add_word (concatenated_word_challenge.ctor l) w := by
  simp [concatenated_word_challenge.ctor, List.foldl_append]

/-- The items pushed for a word form a block. -/
theorem block_ok_pushed (root : trie_node) (w : Word) :
    block_ok (add_word_from root [] w).2 := by
  by_cases hw : w = []
  · subst hw
    exact ⟨['a'], by simp, by simp [add_word_from]⟩
  · refine ⟨w, hw, ?_⟩
    intro q hq
    obtain ⟨u, v, huv, -, -, ha, hb⟩ := (mem_pushed w root [] q.1 q.2).1 hq
    rw [ha, hb, huv]
    simp

theorem length_lt_queue_fuel {Q : suffix_queue} {q : Word × Word} (h : q ∈ Q) :
    q.2.length < queue_fuel Q := by
  induction Q with
  | nil => simp at h
  | cons a Q ih =>
    rw [queue_fuel_cons]
    rcases List.mem_cons.1 h with rfl | h
    · have := Nat.lt_two_pow q.2.length
      omega
    · have := ih h
      have hpos : 0 < 2 ^ a.2.length := Nat.two_pow_pos _
      omega

theorem final_state_eq_finish (o : bag_iteration) (input : List Word) :
    final_state o input = finish o (concatenated_word_challenge.ctor input).root
      { (⟨[], [], [], []⟩ : loop_state) with Q := (concatenated_word_challenge.ctor input).Q } :=
  rfl

end jeffs

/-- C8, counterexample. The list `ab, a, b, ab` gives `("ab", "", 1)`, and the list
`ab, a, b` in which each word is kept once, at its first occurrence, gives
`("", "", 0)`. -/
theorem duplicates_matter_in_unsorted_input :
    dedup_first [['a', 'b'], ['a'], ['b'], ['a', 'b']] = [['a', 'b'], ['a'], ['b']] ∧
    jeffs.challenge jeffs.insertion_order [['a', 'b'], ['a'], ['b'], ['a', 'b']]
      = some (['a', 'b'], [], 1) ∧
    jeffs.challenge jeffs.insertion_order [['a', 'b'], ['a'], ['b']] = some ([], [], 0) := by
  decide

/-! ## jeffs.cpp: degenerate input, the membership oracle, soundness and termination -/

namespace jeffs

/-- After copies of one word only, the trie holds no word of another length. -/
theorem exists_ctor_replicate (w : Word) (n : Nat) (x : Word) (hx : x.length ≠ w.length) :
    exists_in_trie (concatenated_word_challenge.ctor (List.replicate n w)).root x = false := by
  induction n with
  | zero => exact exists_in_new x
  | succ n ih =>
    rw [List.replicate_succ', ctor_snoc, add_word_root, exists_add_of_length_ne w _ _ x hx]
    exact ih

/-- Copies of one word only leave the work queue empty. -/
theorem ctor_replicate_Q (w : Word) (n : Nat) :
    (concatenated_word_challenge.ctor (List.replicate n w)).Q = [] := by
  induction n with
  | zero => rfl
  | succ n ih =>
    rw [List.replicate_succ', ctor_snoc, add_word_Q, ih, List.nil_append]
    apply List.eq_nil_iff_forall_not_mem.2
    rintro ⟨a, b⟩ hq
    obtain ⟨u, v, huv, hv, hu, -, -⟩ := (mem_pushed w _ [] a b).1 hq
    have hlen : u.length ≠ w.length := by
      have h1 := congrArg List.length huv
      have h2 : 0 < v.length := List.length_pos.2 hv
      simp only [List.length_append] at h1
      omega
    rw [exists_ctor_replicate w n u hlen] at hu
    cases hu

end jeffs

/-- C13. For the empty list and for every list that consists of copies of one word,
shorter than `2 ^ 32` characters and made of characters with the codes `0x01` to `0x7f`,
and every iteration order of the bags, `concatenated_word_challenge` returns
`("", "", 0)`; it returns, so no error is signalled. -/
theorem degenerate_dictionary (o : jeffs.bag_iteration) (w : Word) (n : Nat)
    (_hc : seven_bit w) (_hlen : w.length < 2 ^ 32) :
    jeffs.challenge o (List.replicate n w) = some ([], [], 0) := by
  have hQ := jeffs.ctor_replicate_Q w n
  rw [(jeffs.challenge_eq o (List.replicate n w)).2]
  simp [jeffs.final_state, hQ, jeffs.queue_fuel, jeffs.run_iterations]

/-- C13, at the empty list, at the list `a`, and at three copies of the word `cat`. -/
theorem degenerate_dictionary_witness :
    seven_bit ['a'] ∧ seven_bit ['c', 'a', 't'] ∧
    jeffs.challenge jeffs.insertion_order [] = some ([], [], 0) ∧
    jeffs.challenge jeffs.insertion_order [['a']] = some ([], [], 0) ∧
    jeffs.challenge jeffs.insertion_order [['c', 'a', 't'], ['c', 'a', 't'], ['c', 'a', 't']]
      = some ([], [], 0) :=
  ⟨by decide, by decide,
    degenerate_dictionary jeffs.insertion_order ['a'] 0 (by decide) (by decide),
    degenerate_dictionary jeffs.insertion_order ['a'] 1 (by decide) (by decide),
    degenerate_dictionary jeffs.insertion_order ['c', 'a', 't'] 3 (by decide) (by decide)⟩

/-- C20. For every input list of words shorter than `2 ^ 32` characters, made of
characters with the codes `0x01` to `0x7f`, and every iteration order of the bags,
`process_work_queue` on the object constructed from the list returns, with the queue
empty: after any number of iterations, every item pushed while an item of the queue is
processed has a suffix strictly shorter than that of the item processed, and an item with
an empty suffix pushes nothing. -/
theorem process_work_queue_terminates (o : jeffs.bag_iteration) (input : List Word)
    (_hc : ∀ w ∈ input, seven_bit w) (_hlen : ∀ w ∈ input, w.length < 2 ^ 32) :
    (∃ r, jeffs.process_work_queue o (jeffs.concatenated_word_challenge.ctor input)
      = some (r, ⟨(jeffs.concatenated_word_challenge.ctor input).root, []⟩)) ∧
    (∀ (n : Nat) (q x : Word × Word),
      q ∈ (jeffs.run_iterations o (jeffs.concatenated_word_challenge.ctor input).root n
        ⟨[], [], [], (jeffs.concatenated_word_challenge.ctor input).Q⟩).Q →
      x ∈ jeffs.expand o (jeffs.concatenated_word_challenge.ctor input).root q →
      x.2.length < q.2.length) ∧
    (∀ p : Word,
      jeffs.expand o (jeffs.concatenated_word_challenge.ctor input).root (p, []) = []) := by
  refine ⟨?_, ?_, ?_⟩
  · obtain ⟨st, -, -, h⟩ :=
      jeffs.process_work_queue_eq o (jeffs.concatenated_word_challenge.ctor input)
    exact ⟨_, h⟩
  · intro n q x _ hx
    exact (jeffs.expand_word_and_length hx).2
  · intro p
    apply List.eq_nil_iff_forall_not_mem.2
    intro x hx
    have := (jeffs.expand_word_and_length hx).2
    simp at this

set_option maxRecDepth 1000000 in
/-- C20, at the list `a, aa, aaa`, where processing an item pushes further items. -/
theorem process_work_queue_terminates_witness :
    (∀ w ∈ ([['a'], ['a', 'a'], ['a', 'a', 'a']] : List Word), seven_bit w) ∧
    (∀ w ∈ ([['a'], ['a', 'a'], ['a', 'a', 'a']] : List Word), w.length < 2 ^ 32) ∧
    jeffs.expand jeffs.insertion_order
        (jeffs.concatenated_word_challenge.ctor [['a'], ['a', 'a'], ['a', 'a', 'a']]).root
        (['a'], ['a', 'a'])
      = [(['a', 'a'], ['a']), (['a', 'a', 'a'], [])] ∧
    ∃ r, jeffs.process_work_queue jeffs.insertion_order
        (jeffs.concatenated_word_challenge.ctor [['a'], ['a', 'a'], ['a', 'a', 'a']])
      = some (r,
          ⟨(jeffs.concatenated_word_challenge.ctor [['a'], ['a', 'a'], ['a', 'a', 'a']]).root,
            []⟩) :=
  ⟨by decide, by decide, by decide,
    (process_work_queue_terminates jeffs.insertion_order _ (by decide) (by decide)).1⟩

namespace catwords

/-- The loop over the split points does not end in `std::out_of_range` when no split
point lies beyond the end of the word and no recursive call ends so. -/
theorem try_splits_in_range (W : Words) (self : Word → outcome) (word : Word)
    (ps : List Nat)
    (hps : ∀ p ∈ ps, p ≤ word.length ∧ self (word.drop p) ≠ .out_of_range) :
    try_splits W self word ps ≠ .out_of_range := by
  induction ps with
  | nil => simp [try_splits]
  | cons p ps ih =>
    have hp := hps p (by simp)
    have ih' := ih (fun q hq => hps q (List.mem_cons_of_mem _ hq))
    have hlt : ¬ word.length < p := not_lt.2 hp.1
    simp only [try_splits, hlt, if_false]
    split
    · split
      · simp
      · split
        · simp
        · exact ih'
        · rename_i e _ _ he
          exact hp.2
    · exact ih'

/-- Whatever the depth allowed, a call on a word at least as long as the shortest word
does not end in `std::out_of_range`. -/
theorem is_cat_word_fuel_in_range (W : Words) :
    ∀ (n : Nat) (word : Word), W.shortest_word_len_ ≤ word.length → word.length < 2 ^ 64 →
      is_cat_word_fuel W n word ≠ .out_of_range := by
  intro n
  induction n with
  | zero => intro word _ _; simp [is_cat_word_fuel]
  | succ n ih =>
    intro word hm hw
    simp only [is_cat_word_fuel]
    apply try_splits_in_range
    intro p hp
    have := (mem_split_points hm hw).1 hp
    refine ⟨by omega, ih _ ?_ ?_⟩
    · simp only [List.length_drop]; omega
    · simp only [List.length_drop]; omega

/-- With a shortest word length of at least one, a call with more fuel than the word has
characters returns a value. -/
theorem is_cat_word_fuel_returns (W : Words) (h1 : 1 ≤ W.shortest_word_len_) :
    ∀ (n : Nat) (word : Word), word.length < n → W.shortest_word_len_ ≤ word.length →
      word.length < 2 ^ 64 → ∃ b, is_cat_word_fuel W n word = .value b := by
  intro n
  induction n with
  | zero => intro word h; omega
  | succ n ih =>
    intro word hn hm hw
    have hsp := fun p => mem_split_points (p := p) hm hw
    obtain ⟨b, hb, -⟩ := try_splits_spec W (is_cat_word_fuel W n) word
      (fun r => is_cat_word_fuel W n r = .value true) (split_points W word)
      (fun p hp => by have := (hsp p).1 hp; omega)
      (fun p hp => by
        have := (hsp p).1 hp
        obtain ⟨c, hc⟩ := ih (word.drop p) (by simp only [List.length_drop]; omega)
          (by simp only [List.length_drop]; omega) (by simp only [List.length_drop]; omega)
        refine ⟨c, hc, ?_⟩
        show c = true ↔ is_cat_word_fuel W n (word.drop p) = .value true
        rw [hc]
        constructor
        · rintro rfl; rfl
        · intro h; exact outcome.value.inj h)
    exact ⟨b, hb⟩

/-- With the empty word in the dictionary, the search returns `true` at the split point
`0` for every word of the dictionary. -/
theorem shortest_eq_zero {D : List Word} (h : ([] : Word) ∈ D) :
    (Words.load D).shortest_word_len_ = 0 := by
  have := shortest_le_of_mem h
  simpa using this

end catwords

/-- C15. For every dictionary `D` with shortest word length `m` and every word `w` of `D`
for which `Words::is_cat_word_` returns `true`, there is a split point `p` with
`m ≤ p ≤ len(w) - m` such that `w[0:p]` is in `D` and `w[p:]` is in `D` or is itself
classified composite by `is_cat_word_`. -/
theorem split_witness (D : List Word) (w : Word) (hD : w ∈ D) (hw : w.length < 2 ^ 64)
    (hcat : catwords.is_cat_word_ (catwords.Words.load D) w = .value true) :
    ∃ p, (catwords.Words.load D).shortest_word_len_ ≤ p ∧
      p + (catwords.Words.load D).shortest_word_len_ ≤ w.length ∧
      w.take p ∈ D ∧
      (w.drop p ∈ D ∨
        catwords.is_cat_word_ (catwords.Words.load D) (w.drop p) = .value true) := by
  by_cases hne : ∀ d ∈ D, d ≠ []
  · have hm := catwords.shortest_le_of_mem hD
    have hc : composite D w :=
      (jeffs.composite_iff_of_is_cat_word D hne w hm hw true hcat).2 rfl
    obtain ⟨p, ⟨hp1, hp2⟩, h1, h2⟩ :=
      (catwords.composite_iff_split (fun d hd => catwords.shortest_le_of_mem hd) w).1 hc
    refine ⟨p, hp1, hp2, h1, ?_⟩
    rcases h2 with h2 | h2
    · exact Or.inl h2
    · right
      obtain ⟨b, hb, hiff⟩ := catwords.is_cat_word_fuel_spec D hne ((w.drop p).length + 1)
        (w.drop p) (Nat.lt_succ_self _) (by simp only [List.length_drop]; omega)
        (by simp only [List.length_drop]; omega)
      have hbt : b = true := hiff.2 h2
      unfold catwords.is_cat_word_
      rw [hb, hbt]
  · have hnil : ([] : Word) ∈ D := by
      by_contra h
      exact hne (fun d hd hd0 => h (hd0 ▸ hd))
    have h0 := catwords.shortest_eq_zero hnil
    exact ⟨0, by omega, by omega, by simpa using hnil, Or.inl (by simpa using hD)⟩

set_option maxRecDepth 1000000 in
/-- C15, at the dictionary `cat, dog, catdog` and its word `catdog`. -/
theorem split_witness_witness :
    (['c','a','t','d','o','g'] : Word)
      ∈ ([['c','a','t'], ['d','o','g'], ['c','a','t','d','o','g']] : List Word) ∧
    catwords.is_cat_word_
      (catwords.Words.load [['c','a','t'], ['d','o','g'], ['c','a','t','d','o','g']])
      ['c','a','t','d','o','g'] = .value true ∧
    ∃ p, (catwords.Words.load
          [['c','a','t'], ['d','o','g'], ['c','a','t','d','o','g']]).shortest_word_len_ ≤ p ∧
      p + (catwords.Words.load
          [['c','a','t'], ['d','o','g'], ['c','a','t','d','o','g']]).shortest_word_len_
        ≤ (['c','a','t','d','o','g'] : Word).length ∧
      (['c','a','t','d','o','g'] : Word).take p
        ∈ ([['c','a','t'], ['d','o','g'], ['c','a','t','d','o','g']] : List Word) ∧
      ((['c','a','t','d','o','g'] : Word).drop p
          ∈ ([['c','a','t'], ['d','o','g'], ['c','a','t','d','o','g']] : List Word) ∨
        catwords.is_cat_word_
          (catwords.Words.load [['c','a','t'], ['d','o','g'], ['c','a','t','d','o','g']])
          ((['c','a','t','d','o','g'] : Word).drop p) = .value true) :=
  ⟨by decide, by decide, split_witness _ _ (by decide) (by simp) (by decide)⟩

/-- C18. For every set of words with shortest word length `m` and every word `w` with
`len(w) ≥ m`: the unsigned subtraction `len(w) - m` does not wrap around, every split
point `p` visited satisfies `p ≤ len(w)` and leaves a suffix of length at least `m`, and no
call of `is_cat_word_`, at any depth allowed, ends in `std::out_of_range`. -/
theorem is_cat_word_index_safe (W : catwords.Words) (w : Word)
    (hm : W.shortest_word_len_ ≤ w.length) (hw : w.length < 2 ^ 64) :
    (w.length + 2 ^ 64 - W.shortest_word_len_) % 2 ^ 64 = w.length - W.shortest_word_len_ ∧
    (∀ p ∈ catwords.split_points W w,
      p ≤ w.length ∧ W.shortest_word_len_ ≤ (w.drop p).length) ∧
    (∀ n, catwords.is_cat_word_fuel W n w ≠ .out_of_range) ∧
    catwords.is_cat_word_ W w ≠ .out_of_range := by
  refine ⟨?_, ?_, ?_, ?_⟩
  · have : w.length + 2 ^ 64 - W.shortest_word_len_
        = (w.length - W.shortest_word_len_) + 2 ^ 64 := by omega
    rw [this, Nat.add_mod_right]
    exact Nat.mod_eq_of_lt (by omega)
  · intro p hp
    have := (catwords.mem_split_points hm hw).1 hp
    simp only [List.length_drop]
    omega
  · intro n
    exact catwords.is_cat_word_fuel_in_range W n w hm hw
  · exact catwords.is_cat_word_fuel_in_range W _ w hm hw

set_option maxRecDepth 1000000 in
/-- C18, at the dictionary `cat, dog, catdog` and the word `catdog`. -/
theorem is_cat_word_index_safe_witness :
    (catwords.Words.load
        [['c','a','t'], ['d','o','g'], ['c','a','t','d','o','g']]).shortest_word_len_
      ≤ (['c','a','t','d','o','g'] : Word).length ∧
    catwords.is_cat_word_
      (catwords.Words.load [['c','a','t'], ['d','o','g'], ['c','a','t','d','o','g']])
      ['c','a','t','d','o','g'] ≠ .out_of_range :=
  ⟨by decide,
    (is_cat_word_index_safe _ ['c','a','t','d','o','g'] (by decide) (by simp)).2.2.2⟩

/-- C19. For every set of words whose shortest word length `m` is at least one and every
word `w` with `len(w) ≥ m`, `Words::is_cat_word_` returns: every split point is at least
one, so every recursive call is on a suffix strictly shorter than `w`, and a recursion
depth of `len(w) + 1` is enough. -/
theorem is_cat_word_terminates (W : catwords.Words) (h1 : 1 ≤ W.shortest_word_len_)
    (w : Word) (hm : W.shortest_word_len_ ≤ w.length) (hw : w.length < 2 ^ 64) :
    (∃ b, catwords.is_cat_word_ W w = .value b) ∧
    (∀ p ∈ catwords.split_points W w, 1 ≤ p ∧ (w.drop p).length < w.length) := by
  constructor
  · exact catwords.is_cat_word_fuel_returns W h1 _ w (Nat.lt_succ_self _) hm hw
  · intro p hp
    have := (catwords.mem_split_points hm hw).1 hp
    simp only [List.length_drop]
    omega

set_option maxRecDepth 1000000 in
/-- C19, at the dictionary `cat, dog, catdog` and the word `catdog`. -/
theorem is_cat_word_terminates_witness :
    1 ≤ (catwords.Words.load
        [['c','a','t'], ['d','o','g'], ['c','a','t','d','o','g']]).shortest_word_len_ ∧
    (catwords.Words.load
        [['c','a','t'], ['d','o','g'], ['c','a','t','d','o','g']]).shortest_word_len_
      ≤ (['c','a','t','d','o','g'] : Word).length ∧
    ∃ b, catwords.is_cat_word_
      (catwords.Words.load [['c','a','t'], ['d','o','g'], ['c','a','t','d','o','g']])
      ['c','a','t','d','o','g'] = .value b :=
  ⟨by decide, by decide,
    (is_cat_word_terminates _ (by decide) ['c','a','t','d','o','g'] (by decide) (by simp)).1⟩

/-! ## catwords.cpp: the scan of the constructor -/

namespace catwords

/-- With the empty word in the dictionary, the search returns `true` for every word of
the dictionary, at the split point `0`. -/
theorem is_cat_word_of_nil_mem {D : List Word} (hnil : ([] : Word) ∈ D) {w : Word}
    (hw : w ∈ D) (hlen : w.length < 2 ^ 64) :
    is_cat_word_ (Words.load D) w = .value true := by
  have h0 := shortest_eq_zero hnil
  have hsp : split_points (Words.load D) w = 0 :: List.range' 1 w.length := by
    unfold split_points
    rw [h0]
    have : (w.length + 2 ^ 64 - 0) % 2 ^ 64 = w.length := by
      rw [Nat.sub_zero, Nat.add_mod_right]
      exact Nat.mod_eq_of_lt hlen
    have h2 : (w.length + 2 ^ 64) % 2 ^ 64 = w.length := by simpa using this
    simp only [Nat.sub_zero, h2]
    rw [List.range'_succ]
  unfold is_cat_word_
  simp only [is_cat_word_fuel, hsp, try_splits, Nat.not_lt_zero, if_false, List.take_zero,
    List.drop_zero, is_word_load.2 hnil, is_word_load.2 hw, if_true]

/-- On a word of the dictionary the search returns a value. -/
theorem is_cat_word_returns_of_mem (D : List Word) {w : Word} (hw : w ∈ D)
    (hlen : w.length < 2 ^ 64) : ∃ b, is_cat_word_ (Words.load D) w = .value b := by
  by_cases hne : ∀ d ∈ D, d ≠ []
  · obtain ⟨b, hb, -⟩ := is_cat_word_fuel_spec D hne (w.length + 1) w (Nat.lt_succ_self _)
      (shortest_le_of_mem hw) hlen
    exact ⟨b, hb⟩
  · have hnil : ([] : Word) ∈ D := by
      by_contra h
      exact hne (fun d hd hd0 => h (hd0 ▸ hd))
    exact ⟨true, is_cat_word_of_nil_mem hnil hw hlen⟩

/-- The lambda's update on an array of two words: a strictly longer word becomes the
first and moves the previous first to the second place; a word no longer than the first
and strictly longer than the second becomes the second; any other word is dropped. -/
theorem offer_pair (a b w : Word) :
    offer [a, b] w
      = if w.length > a.length then [w, a]
        else if w.length > b.length then [a, w] else [a, b] := by
  by_cases h1 : w.length > a.length
  · simp [offer, find_longest, rotate, h1]
  · by_cases h2 : w.length > b.length
    · simp [offer, find_longest, rotate, h1, h2]
    · simp [offer, find_longest, h1, h2]

/-- Offering a word to the first two places of a list (empty words standing for missing
places) gives the first two places of the list with the word inserted. -/
theorem offer_eq_insert_behind (S : List Word) (w : Word) :
    offer [S.getD 0 [], S.getD 1 []] w
      = [(insert_behind w S).getD 0 [], (insert_behind w S).getD 1 []] := by
  rw [offer_pair]
  match S with
  | [] =>
    by_cases h : w.length > 0
    · simp [insert_behind, h]
    · have hw : w = [] := List.length_eq_zero.1 (by omega)
      subst hw
      simp [insert_behind]
  | [a] =>
    by_cases h1 : w.length > a.length
    · simp [insert_behind, h1]
    · by_cases h2 : w.length > 0
      · simp [insert_behind, h1, h2]
      · have hw : w = [] := List.length_eq_zero.1 (by omega)
        subst hw
        simp [insert_behind]
  | a :: b :: S' =>
    by_cases h1 : w.length > a.length
    · simp [insert_behind, h1]
    · by_cases h2 : w.length > b.length
      · simp [insert_behind, h1, h2]
      · simp [insert_behind, h1, h2]

/-- Inserting a word in front of the first word that is no longer, and inserting another
behind every word at least as long, can be done in either order. -/
theorem orderedInsert_insert_behind (a w : Word) (L : List Word) :
    List.orderedInsert (fun x y : Word => y.length ≤ x.length) a (insert_behind w L)
      = insert_behind w (List.orderedInsert (fun x y : Word => y.length ≤ x.length) a L) := by
  induction L with
  | nil =>
    by_cases h : w.length ≤ a.length
    · have h' : ¬ w.length > a.length := by omega
      simp [insert_behind, List.orderedInsert, h, h']
    · have h' : w.length > a.length := by omega
      simp [insert_behind, List.orderedInsert, h, h']
  | cons b L ih =>
    by_cases hP : b.length ≤ a.length
    · by_cases hQ : w.length > b.length
      · by_cases h : w.length ≤ a.length
        · have h' : ¬ w.length > a.length := by omega
          simp [insert_behind, List.orderedInsert, hP, hQ, h, h']
        · have h' : w.length > a.length := by omega
          simp [insert_behind, List.orderedInsert, hP, hQ, h, h']
      · have h' : ¬ w.length > a.length := by omega
        simp [insert_behind, List.orderedInsert, hP, hQ, h']
    · by_cases hQ : w.length > b.length
      · have h : ¬ w.length ≤ a.length := by omega
        simp [insert_behind, List.orderedInsert, hP, hQ, h]
      · simp [insert_behind, List.orderedInsert, hP, hQ, ih]

/-- The stable sort of a list with one more word at its end. -/
theorem stable_sort_snoc (L : List Word) (w : Word) :
    stable_sort_by_length (L ++ [w]) = insert_behind w (stable_sort_by_length L) := by
  unfold stable_sort_by_length
  induction L with
  | nil => simp [insert_behind]
  | cons a L ih =>
    show List.orderedInsert _ a (List.insertionSort _ (L ++ [w])) = _
    rw [ih, orderedInsert_insert_behind]
    rfl

end catwords

namespace catwords

theorem cat_words_of_snoc (W : Words) (L : List Word) (w : Word) :
    cat_words_of W (L ++ [w])
      = cat_words_of W L ++ (if is_cat_word_ W w = .value true then [w] else []) := by
  unfold cat_words_of
  rw [List.filter_append]
  congr 1
  by_cases h : is_cat_word_ W w = .value true
  · simp [List.filter_cons, h]
  · simp [List.filter_cons, h]

/-- The scan over a list of words on each of which `is_cat_word_` returns a value: the
array holds the first two places of the stable sort of the concatenated words, and the
count is their number. -/
theorem scan_foldl (W : Words) (L : List Word)
    (hret : ∀ w ∈ L, ∃ b, is_cat_word_ W w = .value b) :
    L.foldl (scan_step W) (some (no_cat_words, 0))
      = some ([(stable_sort_by_length (cat_words_of W L)).getD 0 [],
          (stable_sort_by_length (cat_words_of W L)).getD 1 []],
        (cat_words_of W L).length) := by
  induction L using List.reverseRecOn with
  | nil => rfl
  | append_singleton L w ih =>
    rw [List.foldl_append, ih (fun x hx => hret x (List.mem_append_left _ hx))]
    obtain ⟨b, hb⟩ := hret w (by simp)
    rw [cat_words_of_snoc]
    cases b with
    | true =>
      simp only [List.foldl_cons, List.foldl_nil, scan_step, hb, if_true,
        stable_sort_snoc, offer_eq_insert_behind, List.length_append, List.length_singleton]
    | false =>
      have hne : ¬ (outcome.value false = outcome.value true) := by simp
      simp only [List.foldl_cons, List.foldl_nil, scan_step, hb, hne, if_false,
        List.append_nil]

theorem to_int_of_lt {n : Nat} (h : n < 2 ^ 31) : to_int n = (n : Int) := by
  unfold to_int
  have : (n + 2 ^ 31) % 2 ^ 32 = n + 2 ^ 31 := Nat.mod_eq_of_lt (by omega)
  rw [this]
  push_cast
  ring

theorem length_cat_words_of_le (W : Words) (L : List Word) :
    (cat_words_of W L).length ≤ L.length :=
  List.length_filter_le _ _

/-- The count of the constructor for the dictionary `D`, whatever the scan order. -/
theorem count_cat_words_eq (o : scan_order) (D : List Word)
    (hlen : ∀ w ∈ D, w.length < 2 ^ 64) :
    count_cat_words o (Words.load D)
      = some ⟨[(stable_sort_by_length
            (cat_words_of (Words.load D) (o.order (Words.load D).words_))).getD 0 [],
          (stable_sort_by_length
            (cat_words_of (Words.load D) (o.order (Words.load D).words_))).getD 1 []],
        to_int (cat_words_of (Words.load D) (o.order (Words.load D).words_)).length⟩ := by
  unfold count_cat_words
  rw [scan_foldl]
  · rfl
  · intro w hw
    have hD : w ∈ D := mem_load_words.1 ((o.perm _).mem_iff.1 hw)
    exact is_cat_word_returns_of_mem D hD (hlen w hD)

end catwords

/-- C12. For every scan order of the distinct dictionary words (word lengths below
`2 ^ 64`, fewer than `2 ^ 31` distinct words), the `count_if` of the constructor returns;
afterwards `longest_cat_words_` holds the first two elements of the concatenated words in
scan order, stably sorted by descending length, empty words standing for missing elements,
and `n_cat_words_` is the number of dictionary words for which `is_cat_word_` returns
`true`.  In a single step a strictly longer word becomes the longest and moves the
previous longest to the second place, and a word no longer than the word of a place does
not displace it. -/
theorem scan_keeps_two_longest (o : catwords.scan_order) (D : List Word)
    (hlen : ∀ w ∈ D, w.length < 2 ^ 64) (hcount : (catwords.Words.load D).words_.length < 2 ^ 31) :
    (∃ r, catwords.count_cat_words o (catwords.Words.load D) = some r ∧
      r.longest_cat_words_
        = [(catwords.stable_sort_by_length (catwords.cat_words_of (catwords.Words.load D)
              (o.order (catwords.Words.load D).words_))).getD 0 [],
            (catwords.stable_sort_by_length (catwords.cat_words_of (catwords.Words.load D)
              (o.order (catwords.Words.load D).words_))).getD 1 []] ∧
      r.n_cat_words_
        = ((catwords.cat_words_of (catwords.Words.load D)
            (catwords.Words.load D).words_).length : Int)) ∧
    (∀ a b w : Word, w.length > a.length → catwords.offer [a, b] w = [w, a]) ∧
    (∀ a b w : Word, w.length ≤ a.length → w.length > b.length →
      catwords.offer [a, b] w = [a, w]) ∧
    (∀ a b w : Word, w.length ≤ a.length → w.length ≤ b.length →
      catwords.offer [a, b] w = [a, b]) := by
  refine ⟨⟨_, catwords.count_cat_words_eq o D hlen, rfl, ?_⟩, ?_, ?_, ?_⟩
  · have hperm : (catwords.cat_words_of (catwords.Words.load D)
        (o.order (catwords.Words.load D).words_)).Perm
        (catwords.cat_words_of (catwords.Words.load D) (catwords.Words.load D).words_) :=
      (o.perm _).filter _
    have hle := catwords.length_cat_words_of_le (catwords.Words.load D)
      (catwords.Words.load D).words_
    show catwords.to_int _ = _
    rw [hperm.length_eq]
    exact catwords.to_int_of_lt (by omega)
  · intro a b w h
    rw [catwords.offer_pair, if_pos h]
  · intro a b w h1 h2
    rw [catwords.offer_pair, if_neg (by omega), if_pos h2]
  · intro a b w h1 h2
    rw [catwords.offer_pair, if_neg (by omega), if_neg (by omega)]

set_option maxRecDepth 1000000 in
/-- C12, at the dictionary `cat, dog, catdog` scanned in file order. -/
theorem scan_keeps_two_longest_witness :
    (∀ w ∈ ([['c','a','t'], ['d','o','g'], ['c','a','t','d','o','g']] : List Word),
      w.length < 2 ^ 64) ∧
    ∃ r, catwords.count_cat_words catwords.file_order
        (catwords.Words.load [['c','a','t'], ['d','o','g'], ['c','a','t','d','o','g']])
          = some r ∧
      r.n_cat_words_
        = ((catwords.cat_words_of
            (catwords.Words.load [['c','a','t'], ['d','o','g'], ['c','a','t','d','o','g']])
            (catwords.Words.load
              [['c','a','t'], ['d','o','g'], ['c','a','t','d','o','g']]).words_).length : Int) :=
  ⟨by decide,
    (scan_keeps_two_longest catwords.file_order
      [['c','a','t'], ['d','o','g'], ['c','a','t','d','o','g']] (by decide) (by decide)).1.imp
      (fun _ h => ⟨h.1, h.2.2⟩)⟩

/-! ## The two programs side by side -/

namespace catwords

end catwords

namespace jeffs

end jeffs

theorem concat_of_of_exactly {D : List Word} {k : Nat} {w : Word}
    (h : concat_exactly D k w) : concat_of D k w := by
  obtain ⟨parts, hl, hD, hw⟩ := h
  exact ⟨parts, by omega, hD, hw⟩

theorem composite_iff_exactly {D : List Word} {w : Word} :
    composite D w ↔ ∃ n, concat_exactly D (n + 2) w := by
  constructor
  · rintro ⟨parts, hl, hD, hw⟩
    exact ⟨parts.length - 2, parts, by omega, hD, hw⟩
  · rintro ⟨n, h⟩
    exact concat_of_mono (by omega) (concat_of_of_exactly h)

theorem concat_exactly_ne_nil {D : List Word} (hne : ∀ d ∈ D, d ≠ []) {k : Nat} {w : Word}
    (h : concat_exactly D (k + 1) w) : w ≠ [] := by
  have := concat_of_length_ge (m := 1) (fun d hd => List.length_pos.2 (hne d hd))
    (concat_of_of_exactly h)
  intro hw
  simp [hw] at this

/-! ## jeffs.cpp: the longest word is the first of its length in the bag -/

namespace jeffs

theorem bag_insert_of_mem {bag : bag_of_words} {w : Word} (h : w ∈ bag) :
    bag_insert bag w = bag := by
  unfold bag_insert
  rw [if_pos h]

end jeffs

/-! ## jeffs.cpp: the work queue, word by word and level by level -/

namespace jeffs

theorem bag_insert_idem (bag : bag_of_words) (w : Word) :
    bag_insert (bag_insert bag w) w = bag_insert bag w :=
  bag_insert_of_mem (mem_bag_insert.2 (Or.inr rfl))

/-- The bag after the items of a block that all split the word `w`: `w` has been
inserted when the suffix of one of the items is in the trie. -/
theorem foldl_record_item_all_words (root : trie_node) (w : Word) (B : suffix_queue) :
    ∀ (st : loop_state), (∀ q ∈ B, q.1 ++ q.2 = w) →
      ((∃ q ∈ B, exists_in_trie root q.2 = true) →
        (B.foldl (record_item root) st).all_words = bag_insert st.all_words w) ∧
      ((¬ ∃ q ∈ B, exists_in_trie root q.2 = true) →
        (B.foldl (record_item root) st).all_words = st.all_words) := by
  induction B with
  | nil =>
    intro st _
    exact ⟨fun h => by simp at h, fun _ => rfl⟩
  | cons q B ih =>
    intro st hB
    have hq : q.1 ++ q.2 = w := hB q (by simp)
    obtain ⟨ih1, ih2⟩ := ih (record_item root st q)
      (fun q' hq' => hB q' (List.mem_cons_of_mem _ hq'))
    simp only [List.foldl_cons]
    by_cases hex : exists_in_trie root q.2 = true
    · have hrec : (record_item root st q).all_words = bag_insert st.all_words w := by
        unfold record_item
        rw [if_pos hex, record_word_all_words, hq]
      refine ⟨fun _ => ?_, fun hno => absurd ⟨q, by simp, hex⟩ hno⟩
      by_cases hB' : ∃ q' ∈ B, exists_in_trie root q'.2 = true
      · rw [ih1 hB', hrec, bag_insert_idem]
      · rw [ih2 hB', hrec]
    · have hrec : record_item root st q = st := by
        unfold record_item
        rw [if_neg hex]
      rw [hrec] at ih1 ih2 ⊢
      constructor
      · rintro ⟨q', hq', hex'⟩
        rcases List.mem_cons.1 hq' with rfl | hq'
        · exact absurd hex' hex
        · exact ih1 ⟨q', hq', hex'⟩
      · intro hno
        exact ih2 (fun ⟨q', hq', hex'⟩ => hno ⟨q', List.mem_cons_of_mem _ hq', hex'⟩)

end jeffs

namespace jeffs

end jeffs

/-! ## jeffs.cpp: ties between longest words -/

theorem first_occurrences_sublist (ws : List Word) :
    ∀ kept : List Word, (first_occurrences kept ws).Sublist ws := by
  induction ws with
  | nil => intro kept; exact List.Sublist.refl _
  | cons w ws ih =>
    intro kept
    unfold first_occurrences
    split
    · exact (ih kept).cons w
    · exact (ih (kept ++ [w])).cons₂ w

theorem foldl_eq_first_occurrences (ws : List Word) :
    ∀ kept : List Word,
      ws.foldl (fun kept w => if w ∈ kept then kept else kept ++ [w]) kept
        = kept ++ first_occurrences kept ws := by
  induction ws with
  | nil => intro kept; simp [first_occurrences]
  | cons w ws ih =>
    intro kept
    rw [List.foldl_cons, ih]
    by_cases h : w ∈ kept
    · simp only [if_pos h, first_occurrences]
    · simp only [if_neg h, first_occurrences, List.append_assoc, List.singleton_append]

theorem dedup_first_eq_first_occurrences (ws : List Word) :
    dedup_first ws = first_occurrences [] ws := by
  unfold dedup_first
  rw [foldl_eq_first_occurrences]
  rfl

theorem dedup_first_sublist (ws : List Word) : (dedup_first ws).Sublist ws := by
  rw [dedup_first_eq_first_occurrences]
  exact first_occurrences_sublist ws []

/-- A list in which no word stands before one of its proper prefixes keeps the property
when only the first occurrence of each word is kept. -/
theorem prefixes_first_dedup_first {ws : List Word} (h : prefixes_first ws) :
    prefixes_first (dedup_first ws) :=
  List.Pairwise.sublist (dedup_first_sublist ws) h

/-- When the first occurrences of the words stand in an order that puts no word before
one of its proper prefixes, the proper prefixes of a word that are in the list occur
before each occurrence of the word. -/
theorem mem_before_of_prefixes_first {l r : List Word} {w u : Word}
    (hp : prefixes_first (dedup_first (l ++ w :: r))) (hu : u ∈ l ++ w :: r)
    (hpre : u <+: w) (hne : u ≠ w) : u ∈ l := by
  by_contra hul
  have hd : dedup_first (l ++ w :: r)
      = dedup_first (l ++ [w]) ++ first_occurrences (dedup_first (l ++ [w])) r := by
    have hsplit : l ++ w :: r = (l ++ [w]) ++ r := by simp
    rw [hsplit]
    unfold dedup_first
    rw [List.foldl_append, foldl_eq_first_occurrences]
  have hw1 : w ∈ dedup_first (l ++ [w]) := mem_dedup_first.2 (by simp)
  have hu1 : u ∉ dedup_first (l ++ [w]) := by
    intro h
    rcases List.mem_append.1 (mem_dedup_first.1 h) with h | h
    · exact hul h
    · exact hne (List.mem_singleton.1 h)
  have hu2 : u ∈ first_occurrences (dedup_first (l ++ [w])) r := by
    have h := mem_dedup_first.2 hu
    rw [hd] at h
    rcases List.mem_append.1 h with h | h
    · exact absurd h hu1
    · exact h
  unfold prefixes_first at hp
  rw [hd] at hp
  exact (List.pairwise_append.1 hp).2.2 w hw1 u hu2 ⟨hpre, hne⟩

namespace jeffs

/-- The items pushed depend on the trie only through the proper prefixes of the word that
it holds. -/
theorem pushed_congr_proper (w : Word) :
    ∀ (p p' : trie_node) (pre : Word),
      (∀ u : Word, u <+: w → u ≠ w → exists_in_trie p u = exists_in_trie p' u) →
      (add_word_from p pre w).2 = (add_word_from p' pre w).2 := by
  induction w with
  | nil => intro p p' pre _; rfl
  | cons c cs ih =>
    intro p p' pre h
    simp only [add_word_from]
    have ht : p.terminal = p'.terminal := by
      have := h [] List.nil_prefix (by simp)
      simpa [exists_in_trie_nil] using this
    rw [ht]
    congr 1
    apply ih
    intro u hu hne
    rw [exists_in_child, exists_in_child]
    exact h (c :: u) (List.cons_prefix_cons.2 ⟨rfl, hu⟩) (by simpa using hne)

/-- The trie of the list without its duplicates is the trie of the list. -/
theorem ctor_root_dedup_first (ws : List Word) :
    (concatenated_word_challenge.ctor (dedup_first ws)).root
      = (concatenated_word_challenge.ctor ws).root := by
  induction ws using List.reverseRecOn with
  | nil => rfl
  | append_singleton l w ih =>
    by_cases hw : w ∈ l
    · rw [dedup_first_snoc, if_pos (mem_dedup_first.2 hw), ih, ctor_snoc, add_word_root,
        add_word_from_of_exists w _ [] (exists_ctor_of_mem hw)]
    · rw [dedup_first_snoc, if_neg (fun h => hw (mem_dedup_first.1 h)), ctor_snoc, ctor_snoc,
        add_word_root, add_word_root, ih]

/-- For lowercase words whose first occurrences stand in an order that puts no word
before one of its proper prefixes, the queue that the constructor leaves is made, word
after word, of the items that `add_word` pushes for the word when the trie is complete. -/
theorem ctor_Q_eq_pushed {ws : List Word} (hl : ∀ w ∈ ws, lowercase w)
    (hp : prefixes_first (dedup_first ws)) :
    (concatenated_word_challenge.ctor ws).Q
      = (ws.map (pushed_for (concatenated_word_challenge.ctor ws).root)).flatten := by
  suffices H : ∀ (l r : List Word), ws = l ++ r →
      (concatenated_word_challenge.ctor l).Q
        = (l.map (pushed_for (concatenated_word_challenge.ctor ws).root)).flatten from
    H ws [] (by simp)
  intro l
  induction l using List.reverseRecOn with
  | nil => intro r _; rfl
  | append_singleton l w ih =>
    intro r hws
    have hws' : ws = l ++ w :: r := by simpa using hws
    have hw : w ∈ ws := by rw [hws']; simp
    have hll : ∀ x ∈ l, lowercase x := fun x hx => hl x (by rw [hws']; simp [hx])
    rw [ctor_snoc, add_word_Q, ih (w :: r) hws']
    simp only [List.map_append, List.map_cons, List.map_nil, List.flatten_append,
      List.flatten_cons, List.flatten_nil, List.append_nil]
    congr 1
    unfold pushed_for
    apply pushed_congr_proper
    intro u hu hne
    have hlu : lowercase u := prefix_lowercase hu (hl w hw)
    rw [Bool.eq_iff_iff, exists_ctor_iff hll hlu, exists_ctor_iff hl hlu]
    constructor
    · intro h
      rw [hws']
      simp [h]
    · intro h
      rw [hws'] at h hp
      exact mem_before_of_prefixes_first hp h hu hne

theorem record_item_all_words_subset (root : trie_node) (st : loop_state)
    (q : Word × Word) : ∀ x ∈ st.all_words, x ∈ (record_item root st q).all_words := by
  intro x hx
  unfold record_item
  split
  · rw [record_word_all_words]
    exact mem_bag_insert.2 (Or.inl hx)
  · exact hx

theorem foldl_record_item_all_words_subset (root : trie_node) (A : suffix_queue) :
    ∀ (st : loop_state), ∀ x ∈ st.all_words,
      x ∈ (A.foldl (record_item root) st).all_words := by
  induction A with
  | nil => intro st x hx; exact hx
  | cons q A ih =>
    intro st x hx
    simp only [List.foldl_cons]
    exact ih _ x (record_item_all_words_subset root st q x hx)

theorem foldl_record_item_not_found (root : trie_node) (B : suffix_queue) :
    ∀ (st : loop_state), (∀ q ∈ B, exists_in_trie root q.2 = false) →
      B.foldl (record_item root) st = st := by
  induction B with
  | nil => intro st _; rfl
  | cons q B ih =>
    intro st h
    have hq : record_item root st q = st := by
      unfold record_item
      rw [h q (by simp)]
      simp
    simp only [List.foldl_cons, hq]
    exact ih st (fun q' hq' => h q' (List.mem_cons_of_mem _ hq'))

/-- A settled block leaves the tracker as it is. -/
theorem settled_foldl {root : trie_node} {st : loop_state} (h : tracker_inv st)
    {B : suffix_queue} (hs : settled root st B) : B.foldl (record_item root) st = st := by
  rcases hs with hs | ⟨w, hall, hw⟩
  · exact foldl_record_item_not_found root B st hs
  · exact foldl_record_item_of_mem root w B st h hw hall

/-- A block is settled once its items have been processed. -/
theorem settled_after (root : trie_node) (st : loop_state) {B : suffix_queue} {w : Word}
    (hall : ∀ q ∈ B, q.1 ++ q.2 = w) :
    settled root (B.foldl (record_item root) st) B := by
  obtain ⟨h1, -⟩ := foldl_record_item_all_words root w B st hall
  by_cases hf : ∃ q ∈ B, exists_in_trie root q.2 = true
  · right
    refine ⟨w, hall, ?_⟩
    rw [h1 hf]
    exact mem_bag_insert.2 (Or.inr rfl)
  · left
    intro q hq
    cases hex : exists_in_trie root q.2 with
    | false => rfl
    | true => exact absurd ⟨q, hq, hex⟩ hf

theorem settled_mono {root : trie_node} {st st' : loop_state} {B : suffix_queue}
    (hs : settled root st B) (hsub : ∀ x ∈ st.all_words, x ∈ st'.all_words) :
    settled root st' B := by
  rcases hs with hs | ⟨w, hall, hw⟩
  · exact Or.inl hs
  · exact Or.inr ⟨w, hall, hsub w hw⟩

/-- The tracker after the blocks of all the words of a list is the tracker after the
blocks of their first occurrences, the blocks of the words in `kept` being settled. -/
theorem foldl_first_occurrences (root : trie_node) (f : Word → suffix_queue)
    (ws : List Word) :
    ∀ (kept : List Word) (st : loop_state), tracker_inv st →
      (∀ x ∈ ws, block_ok (f x)) → (∀ x ∈ kept, settled root st (f x)) →
      (ws.map f).flatten.foldl (record_item root) st
        = ((first_occurrences kept ws).map f).flatten.foldl (record_item root) st := by
  induction ws with
  | nil => intro kept st _ _ _; rfl
  | cons w ws ih =>
    intro kept st hinv hok hkept
    have hok' : ∀ x ∈ ws, block_ok (f x) := fun x hx => hok x (List.mem_cons_of_mem _ hx)
    unfold first_occurrences
    by_cases hw : w ∈ kept
    · rw [if_pos hw]
      simp only [List.map_cons, List.flatten_cons, List.foldl_append]
      rw [settled_foldl hinv (hkept w hw)]
      exact ih kept st hinv hok' hkept
    · rw [if_neg hw]
      simp only [List.map_cons, List.flatten_cons, List.foldl_append]
      have hokw := hok w (by simp)
      obtain ⟨x, -, hall⟩ := hok w (by simp)
      apply ih (kept ++ [w]) _
        (foldl_record_item_inv root (f w) st hinv (block_ok_word_ne hokw)) hok'
      intro y hy
      rcases List.mem_append.1 hy with hy | hy
      · exact settled_mono (hkept y hy) (foldl_record_item_all_words_subset root (f w) st)
      · simp only [List.mem_singleton] at hy
        rw [hy]
        exact settled_after root st hall

theorem flatMap_flatten_map (g : Word × Word → suffix_queue) (f : Word → suffix_queue)
    (ws : List Word) :
    (ws.map f).flatten.flatMap g = (ws.map (fun x => (f x).flatMap g)).flatten := by
  induction ws with
  | nil => rfl
  | cons w ws ih => simp only [List.map_cons, List.flatten_cons, List.flatMap_append, ih]

/-- Leaving the loop from the blocks of all the words of a list gives the state reached
from the blocks of the first occurrences. -/
theorem finish_first_occurrences (o : bag_iteration) (root : trie_node) (ws : List Word) :
    ∀ (K : Nat) (f : Word → suffix_queue) (st : loop_state), tracker_inv st →
      (∀ x ∈ ws, block_ok (f x)) → (∀ q ∈ (ws.map f).flatten, q.2.length < K) →
      finish o root { st with Q := (ws.map f).flatten }
        = finish o root { st with Q := ((dedup_first ws).map f).flatten } := by
  have hsub : ∀ x ∈ dedup_first ws, x ∈ ws := fun x hx => mem_dedup_first.1 hx
  intro K
  induction K with
  | zero =>
    intro f st _ _ hlen
    have h1 : (ws.map f).flatten = [] := by
      apply List.eq_nil_iff_forall_not_mem.2
      intro q hq
      exact absurd (hlen q hq) (Nat.not_lt_zero _)
    have h2 : ((dedup_first ws).map f).flatten = [] := by
      apply List.eq_nil_iff_forall_not_mem.2
      intro q hq
      simp only [List.mem_flatten, List.mem_map] at hq
      obtain ⟨B, ⟨x, hx, rfl⟩, hq⟩ := hq
      have : q ∈ (ws.map f).flatten := by
        simp only [List.mem_flatten, List.mem_map]
        exact ⟨f x, ⟨x, hsub x hx, rfl⟩, hq⟩
      rw [h1] at this
      simp at this
    rw [h1, h2]
  | succ K ih =>
    intro f st hinv hok hlen
    have hfold : (ws.map f).flatten.foldl (record_item root) st
        = ((dedup_first ws).map f).flatten.foldl (record_item root) st := by
      rw [dedup_first_eq_first_occurrences]
      exact foldl_first_occurrences root f ws [] st hinv hok (by simp)
    have e1 : (ws.map f).flatten.foldl (record_item root) { st with Q := (ws.map f).flatten }
        = { (ws.map f).flatten.foldl (record_item root) st with Q := (ws.map f).flatten } :=
      foldl_record_item_with_Q root _ st _
    have e2 : ((dedup_first ws).map f).flatten.foldl (record_item root)
          { st with Q := ((dedup_first ws).map f).flatten }
        = { (ws.map f).flatten.foldl (record_item root) st
            with Q := ((dedup_first ws).map f).flatten } := by
      rw [foldl_record_item_with_Q root _ st _, hfold]
    rw [finish_level o root { st with Q := (ws.map f).flatten } _ rfl,
      finish_level o root { st with Q := ((dedup_first ws).map f).flatten } _ rfl,
      e1, e2, flatMap_flatten_map, flatMap_flatten_map]
    have hne : ∀ q ∈ (ws.map f).flatten, q.1 ++ q.2 ≠ [] := by
      intro q hq
      simp only [List.mem_flatten, List.mem_map] at hq
      obtain ⟨B, ⟨x, hx, rfl⟩, hq⟩ := hq
      exact block_ok_word_ne (hok x hx) q hq
    have hinv' := foldl_record_item_inv root (ws.map f).flatten st hinv hne
    have hok' : ∀ x ∈ ws, block_ok ((f x).flatMap (expand o root)) :=
      fun x hx => block_ok_flatMap_expand o root (hok x hx)
    have hlen' : ∀ q ∈ (ws.map (fun x => (f x).flatMap (expand o root))).flatten,
        q.2.length < K := by
      intro q hq
      rw [← flatMap_flatten_map] at hq
      obtain ⟨q0, hq0, hq⟩ := List.mem_flatMap.1 hq
      have := (expand_word_and_length hq).2
      have := hlen q0 hq0
      omega
    exact ih (fun x => (f x).flatMap (expand o root))
      ((ws.map f).flatten.foldl (record_item root) st) hinv' hok' hlen'

/-- On lowercase words whose first occurrences stand in an order that puts no word before
one of its proper prefixes, the loop is left in the same state on the list and on the list
without its duplicates. -/
theorem final_state_dedup_first (o : bag_iteration) {ws : List Word}
    (hl : ∀ w ∈ ws, lowercase w) (hp : prefixes_first (dedup_first ws)) :
    final_state o ws = final_state o (dedup_first ws) := by
  have hl' : ∀ w ∈ dedup_first ws, lowercase w := fun w hw => hl w (mem_dedup_first.1 hw)
  have hp' : prefixes_first (dedup_first (dedup_first ws)) := prefixes_first_dedup_first hp
  have hinit : tracker_inv (⟨[], [], [], []⟩ : loop_state) :=
    ⟨by simp, by simp, by simp, Or.inl ⟨rfl, rfl⟩, by simp, Or.inl ⟨rfl, by simp⟩, by simp⟩
  rw [final_state_eq_finish, final_state_eq_finish, ctor_Q_eq_pushed hl hp,
    ctor_Q_eq_pushed hl' hp', ctor_root_dedup_first]
  exact finish_first_occurrences o _ ws
    (queue_fuel (ws.map (pushed_for (concatenated_word_challenge.ctor ws).root)).flatten)
    _ _ hinit (fun x _ => block_ok_pushed _ x) (fun q hq => length_lt_queue_fuel hq)

end jeffs

set_option maxRecDepth 1000000 in
/-- The slot of a character with a code from `0x01` to `0x7f` is inside `children[26]`. -/
theorem jeffs.index_lt_of_seven_bit (c : Char) (h1 : 1 ≤ c.toNat) (h2 : c.toNat ≤ 127) :
    jeffs.index c < 26 := by
  have h : ∀ n : Nat, n < 128 → n ≠ 0 → jeffs.LUT n < 26 := by decide
  exact h c.toNat (by omega) (by omega)

/-- C8, amended. For every list of lowercase words shorter than `2 ^ 32` characters in
which no word first occurs before the first occurrence of one of its proper prefixes
(`dedup_first ws` is the list of the first occurrences; every lexicographically sorted list
is of this kind, and so is every list in which no word stands before one of its proper
prefixes), and every iteration order of the bags, `concatenated_word_challenge` returns the
same result on the list and on the list in which each word is kept once, at its first
occurrence. -/
theorem duplicates_after_prefixes (o : jeffs.bag_iteration) (ws : List Word)
    (hl : ∀ w ∈ ws, lowercase w) (_hlen : ∀ w ∈ ws, w.length < 2 ^ 32)
    (hp : prefixes_first (dedup_first ws)) :
    jeffs.challenge o ws = jeffs.challenge o (dedup_first ws) := by
  rw [(jeffs.challenge_eq o ws).2, (jeffs.challenge_eq o (dedup_first ws)).2,
    jeffs.final_state_dedup_first o hl hp]

set_option maxRecDepth 1000000 in
/-- C8 amended, at the unsorted list `b, a, ab, b, a, ab`, in which the copies of a word
do not stand next to each other. -/
theorem duplicates_after_prefixes_witness :
    (∀ w ∈ ([['b'], ['a'], ['a', 'b'], ['b'], ['a'], ['a', 'b']] : List Word), lowercase w) ∧
    (∀ w ∈ ([['b'], ['a'], ['a', 'b'], ['b'], ['a'], ['a', 'b']] : List Word),
      w.length < 2 ^ 32) ∧
    dedup_first [['b'], ['a'], ['a', 'b'], ['b'], ['a'], ['a', 'b']]
      = [['b'], ['a'], ['a', 'b']] ∧
    prefixes_first (dedup_first [['b'], ['a'], ['a', 'b'], ['b'], ['a'], ['a', 'b']]) ∧
    jeffs.challenge jeffs.insertion_order [['b'], ['a'], ['a', 'b'], ['b'], ['a'], ['a', 'b']]
      = some (['a', 'b'], [], 1) ∧
    jeffs.challenge jeffs.insertion_order [['b'], ['a'], ['a', 'b'], ['b'], ['a'], ['a', 'b']]
      = jeffs.challenge jeffs.insertion_order
          (dedup_first [['b'], ['a'], ['a', 'b'], ['b'], ['a'], ['a', 'b']]) :=
  ⟨by decide, by decide, by decide, by unfold prefixes_first; decide, by decide,
    duplicates_after_prefixes jeffs.insertion_order _ (by decide) (by decide)
      (by unfold prefixes_first; decide)⟩
